import Mathlib

/-!
# WebVideoCreator — verification of spec claims

Shallow embedding of the claim-relevant parts of `src/index.cjs`
(WebVideoCreator): the frame/duration conversions of `util`, the in-page
`CaptureContext` (capture loop, time-virtualized timers), `Page`'s
`#seekTimeActions`, the `Synthesizer`/`VideoChunk`/`ChunkSynthesizer`
duration and audio-offset accounting, `VideoCanvas.canPlay/canDestory`,
and the preprocessor payload pack/unpack pair.

JavaScript numbers are modelled as exact rationals (`ℚ`) where the code
only performs arithmetic and comparisons, and as the sum type `JSNum`
(NaN / ±Infinity / null / finite) where the code's `isNaN` /
finiteness checks are the object of the claim.
-/

/-! ## util.durationToFrameCount / util.frameCountToDuration
`src/index.cjs` lines 1107-1125. -/

/-- `util.durationToFrameCount(duration, fps)`: `Math.floor(duration / 1000 * fps)`. -/
def durationToFrameCount (duration fps : ℚ) : ℤ :=
  ⌊duration / 1000 * fps⌋

/-- `util.frameCountToDuration(frameCount, fps)`: `frameCount / fps` (note: no
factor of 1000, although the caller treats durations as milliseconds). -/
def frameCountToDuration (frameCount fps : ℚ) : ℚ :=
  frameCount / fps

/-- The derivation step of `Page.startScreencast` (lines 5171-5176): a finite
`duration` overrides `frameCount` via `durationToFrameCount`; otherwise a
finite `frameCount` derives `duration` via `frameCountToDuration`.
Returns the resulting `(duration, frameCount)` pair. -/
def startScreencastDerive (fps : ℚ) (duration frameCount : Option ℚ) :
    Option ℚ × Option ℚ :=
  match duration with
  | some d => (some d, some ((durationToFrameCount d fps : ℤ) : ℚ))
  | none =>
    match frameCount with
    | some fc => (some (frameCountToDuration fc fps), some fc)
    | none => (none, none)

/-! ## VideoCanvas.canPlay / canDestory
`src/index.cjs` lines 2842-2849 and 2961-2966.  `canPlay` returns
`undefined` (modelled `none`) on a destroyed media. -/

/-- The scheduling-relevant state of a `VideoCanvas` media. -/
structure VideoCanvasState where
  startTime : ℚ
  endTime : ℚ
  destoryed : Bool

/-- `VideoCanvas.canPlay(time)`: `undefined` when destroyed, else `false`
iff `time < startTime || time >= endTime`. -/
def canPlay (vc : VideoCanvasState) (time : ℚ) : Option Bool :=
  if vc.destoryed then none
  else if time < vc.startTime ∨ time ≥ vc.endTime then some false
  else some true

/-- `VideoCanvas.canDestory(time)`: `false` when already destroyed, else
`time >= endTime`. -/
def canDestory (vc : VideoCanvasState) (time : ℚ) : Bool :=
  if vc.destoryed then false
  else decide (time ≥ vc.endTime)

/-! ## JS number model for the validation claims -/

/-- A JavaScript number (or `null`/`undefined` config slot) as far as the
validation code can distinguish: `NaN`, `+Infinity`, `-Infinity`, `null`
(which coerces to `0` in comparisons and is not `NaN`), or a finite value. -/
inductive JSNum where
  | nan
  | inf
  | ninf
  | nullv
  | num (q : ℚ)
deriving DecidableEq

/-- JS `isNaN(x)` on a config slot: only `NaN` (note `isNaN(null) = false`
because `Number(null) = 0`). -/
def jsIsNaN : JSNum → Bool
  | .nan => true
  | _ => false

/-- JS `x <= 0` on a config slot (`null` coerces to `0`, comparisons with
`NaN` are false, `-Infinity <= 0` is true, `Infinity <= 0` is false). -/
def jsLe0 : JSNum → Bool
  | .nan => false
  | .inf => false
  | .ninf => true
  | .nullv => true
  | .num q => decide (q ≤ 0)

/-- Lodash `_.isFinite`: true exactly on finite numbers. -/
def jsIsFinite : JSNum → Bool
  | .num _ => true
  | _ => false

/-- JS `x % 2 === 0` on a config slot: only finite even integers pass. -/
def jsEven : JSNum → Bool
  | .num q => decide (q.den = 1 ∧ q.num % 2 = 0)
  | _ => false

/-- "x is a finite strictly positive number" — the premise vocabulary of the
spec claim about configuration validation. -/
def isFinitePositive : JSNum → Prop
  | .num q => 0 < q
  | _ => False

/-- `CaptureContext._checkConfig` (lines 3991-3999): throws (message
returned as `some`) when `isNaN(v) || v <= 0` for `fps`, `duration`
or `frameCount`, in that order. -/
def checkConfig (fps duration frameCount : JSNum) : Option String :=
  if jsIsNaN fps || jsLe0 fps then some "config fps is invalid"
  else if jsIsNaN duration || jsLe0 duration then some "config duration is invalid"
  else if jsIsNaN frameCount || jsLe0 frameCount then some "config frameCount is invalid"
  else none

/-- `SUPPORT_FORMAT` (line 32). -/
def SUPPORT_FORMAT : List String := ["mp4", "webm"]

/-- The width/height/duration/format assertions of the `Synthesizer`
constructor (lines 6706-6711): `true` iff construction throws.
`width`/`height` must be finite and even, `duration` finite, and a supplied
`format` must be in `SUPPORT_FORMAT` (an `undefined` format is allowed and
later defaulted). -/
def synthesizerCtorThrows (width height duration : JSNum)
    (format : Option String) : Bool :=
  !(jsIsFinite width && jsEven width)
  || !(jsIsFinite height && jsEven height)
  || !(jsIsFinite duration)
  || (match format with
      | some f => !(decide (f ∈ SUPPORT_FORMAT))
      | none => false)


/-! ## Claim theorems: C10, C9, C7 -/

/-- C10: `util.frameCountToDuration(frameCount, fps)` returns `frameCount/fps`
with no factor of 1000, while `util.durationToFrameCount(duration, fps)`
computes `floor(duration/1000*fps)`; hence composing them gives
`floor(frameCount/1000)` instead of `frameCount`, and `startScreencast`
called with a `frameCount` but no `duration` derives a duration exactly
one thousandth of the millisecond value `frameCount/fps*1000` implied by
`frameCount` frames at `fps`. -/
theorem frameConversionMismatch (fc d fps : ℚ) (hfps : fps ≠ 0) :
    frameCountToDuration fc fps = fc / fps
    ∧ durationToFrameCount d fps = ⌊d / 1000 * fps⌋
    ∧ durationToFrameCount (frameCountToDuration fc fps) fps = ⌊fc / 1000⌋
    ∧ startScreencastDerive fps none (some fc)
        = (some (fc / fps), some fc)
    ∧ frameCountToDuration fc fps = (fc / fps * 1000) / 1000 := by
  refine ⟨rfl, rfl, ?_, rfl, ?_⟩
  · unfold durationToFrameCount frameCountToDuration
    have h : fc / fps / 1000 * fps = fc / 1000 := by
      field_simp
      ring
    rw [h]
  · unfold frameCountToDuration
    rw [mul_div_assoc]
    norm_num

/-- Witness for `frameConversionMismatch` at `fc = 3000`, `d = 1000`,
`fps = 30`. -/
theorem frameConversionMismatch_witness :
    (30 : ℚ) ≠ 0
    ∧ (frameCountToDuration 3000 30 = 3000 / 30
      ∧ durationToFrameCount 1000 30 = ⌊(1000 : ℚ) / 1000 * 30⌋
      ∧ durationToFrameCount (frameCountToDuration 3000 30) 30 = ⌊(3000 : ℚ) / 1000⌋
      ∧ startScreencastDerive 30 none (some 3000)
          = (some (3000 / 30), some 3000)
      ∧ frameCountToDuration 3000 30 = (3000 / 30 * 1000) / 1000) :=
  ⟨by norm_num, frameConversionMismatch 3000 1000 30 (by norm_num)⟩

/-- C9: for a `VideoCanvas` that has not been destroyed, `canPlay(t)` is true
exactly when `startTime ≤ t < endTime`, and `canDestory(t)` is true exactly
when `t ≥ endTime`. -/
theorem canPlay_canDestory_spec (vc : VideoCanvasState) (t : ℚ)
    (h : vc.destoryed = false) :
    (canPlay vc t = some true ↔ vc.startTime ≤ t ∧ t < vc.endTime)
    ∧ (canDestory vc t = true ↔ vc.endTime ≤ t) := by
  constructor
  · rw [canPlay, h]
    simp only [Bool.false_eq_true, if_false]
    by_cases hc : t < vc.startTime ∨ t ≥ vc.endTime
    · rw [if_pos hc]
      simp only [Option.some.injEq, Bool.false_eq_true, false_iff]
      intro hand
      rcases hc with h3 | h3
      · linarith [hand.1]
      · linarith [hand.2]
    · rw [if_neg hc]
      push_neg at hc
      simp only [Option.some.injEq, true_iff]
      exact ⟨le_of_not_lt (fun hlt => absurd hlt (by exact fun _ => absurd hc.1 (by simp [hlt]))), hc.2⟩
  · rw [canDestory, h]
    simp [ge_iff_le]

/-- Witness for `canPlay_canDestory_spec` on the media
`{startTime := 0, endTime := 10, destoryed := false}` at `t = 5`. -/
theorem canPlay_canDestory_spec_witness :
    (VideoCanvasState.mk 0 10 false).destoryed = false
    ∧ ((canPlay (VideoCanvasState.mk 0 10 false) 5 = some true
        ↔ (VideoCanvasState.mk 0 10 false).startTime ≤ 5
          ∧ (5 : ℚ) < (VideoCanvasState.mk 0 10 false).endTime)
      ∧ (canDestory (VideoCanvasState.mk 0 10 false) 5 = true
        ↔ (VideoCanvasState.mk 0 10 false).endTime ≤ 5)) :=
  ⟨rfl, canPlay_canDestory_spec (VideoCanvasState.mk 0 10 false) 5 rfl⟩

/-- C7 counterexample: `fps = Infinity` is not a finite positive number, yet
`CaptureContext._checkConfig` does not throw on it (its test is
`isNaN(fps) || fps <= 0`, which `Infinity` passes), refuting "not a finite
positive number throws synchronously". -/
theorem checkConfig_infinity_counterexample :
    checkConfig JSNum.inf (JSNum.num 1000) (JSNum.num 30) = none
    ∧ ¬ isFinitePositive JSNum.inf := by
  constructor
  · decide
  · intro h
    exact h

/-- C7 amended: `_checkConfig` passes exactly when each of `fps`, `duration`,
`frameCount` is neither `NaN` nor `<= 0` under JS coercion — so `NaN`,
unset values and non-positive values (including `-Infinity`) throw, but
`+Infinity` does not; and the `Synthesizer` constructor accepts exactly when
`width` and `height` are finite even numbers, `duration` is finite,
and a supplied `format` is inside `SUPPORT_FORMAT`. -/
theorem configValidation_spec (fps duration frameCount width height sdur : JSNum)
    (format : Option String) :
    (checkConfig fps duration frameCount = none
      ↔ (jsIsNaN fps = false ∧ jsLe0 fps = false)
        ∧ (jsIsNaN duration = false ∧ jsLe0 duration = false)
        ∧ (jsIsNaN frameCount = false ∧ jsLe0 frameCount = false))
    ∧ (synthesizerCtorThrows width height sdur format = false
      ↔ (jsIsFinite width = true ∧ jsEven width = true)
        ∧ (jsIsFinite height = true ∧ jsEven height = true)
        ∧ jsIsFinite sdur = true
        ∧ (∀ f, format = some f → f ∈ SUPPORT_FORMAT)) := by
  constructor
  · unfold checkConfig
    split_ifs with h1 h2 h3
    · simp only [reduceCtorEq, false_iff]
      intro hh
      rw [hh.1.1, hh.1.2] at h1
      simp at h1
    · simp only [reduceCtorEq, false_iff]
      intro hh
      rw [hh.2.1.1, hh.2.1.2] at h2
      simp at h2
    · simp only [reduceCtorEq, false_iff]
      intro hh
      rw [hh.2.2.1, hh.2.2.2] at h3
      simp at h3
    · simp only [true_iff]
      simp only [Bool.or_eq_true, not_or, Bool.not_eq_true] at h1 h2 h3
      exact ⟨⟨h1.1, h1.2⟩, ⟨h2.1, h2.2⟩, ⟨h3.1, h3.2⟩⟩
  · unfold synthesizerCtorThrows
    cases format with
    | none =>
      simp only [Bool.or_eq_false_iff, Bool.not_eq_false', Bool.and_eq_true]
      constructor
      · intro hh
        refine ⟨hh.1.1.1, hh.1.1.2, hh.1.2, ?_⟩
        intro f hf
        exact absurd hf (by simp)
      · intro hh
        exact ⟨⟨⟨hh.1, hh.2.1⟩, hh.2.2.1⟩, trivial⟩
    | some f =>
      simp only [Bool.or_eq_false_iff, Bool.not_eq_false', Bool.and_eq_true,
        decide_eq_true_eq]
      constructor
      · intro hh
        refine ⟨hh.1.1.1, hh.1.1.2, hh.1.2, ?_⟩
        intro g hg
        cases Option.some.inj hg
        exact hh.2
      · intro hh
        exact ⟨⟨⟨hh.1, hh.2.1⟩, hh.2.2.1⟩, hh.2.2.2 f rfl⟩

/-! ## CaptureContext capture loop
`src/index.cjs` lines 3904-3977 (`CaptureContext.start`'s `nextFrame`
recursion).  The claim scenario fixes `startFlag = true` (loop entered),
no pause (`pauseFlag = false`), no external stop, and `____captureFrame()`
always returning `true`; media/CSS/timeActions scheduling inside the tick
does not touch the loop variables and is elided. -/

/-- The capture configuration of the in-page `captureCtx.config`. -/
structure CaptureConfig where
  fps : ℚ
  startTime : ℚ
  duration : ℚ
  frameCount : ℚ

/-- Host-visible events issued by one run of the capture loop. -/
inductive CaptureEvent where
  | captureFrame
  | skipFrame
  | screencastCompleted
deriving DecidableEq

/-- One run of the `nextFrame` recursion: per tick, advance
`currentTime += 1000/fps`, then if `currentTime >= startTime` capture a
frame and stop with `____screencastCompleted()` once `++frameIndex`
reaches `frameCount`, else `____skipFrame()`.  `fuel` bounds the
recursion depth of the model. -/
def nextFrame (cfg : CaptureConfig) (currentTime : ℚ) (frameIndex : ℕ)
    (stopFlag : Bool) : ℕ → List CaptureEvent
  | 0 => []
  | fuel + 1 =>
    if stopFlag then [.screencastCompleted]
    else
      let t := currentTime + 1000 / cfg.fps
      if t ≥ cfg.startTime then
        if (frameIndex + 1 : ℚ) ≥ cfg.frameCount then
          [.captureFrame, .screencastCompleted]
        else
          .captureFrame :: nextFrame cfg t (frameIndex + 1) stopFlag fuel
      else
        .skipFrame :: nextFrame cfg t frameIndex stopFlag fuel

/-- Unfolding helper: the loop body at positive fuel. -/
theorem nextFrame_succ (cfg : CaptureConfig) (currentTime : ℚ) (frameIndex : ℕ)
    (stopFlag : Bool) (fuel : ℕ) :
    nextFrame cfg currentTime frameIndex stopFlag (fuel + 1)
      = if stopFlag then [.screencastCompleted]
        else
          let t := currentTime + 1000 / cfg.fps
          if t ≥ cfg.startTime then
            if (frameIndex + 1 : ℚ) ≥ cfg.frameCount then
              [.captureFrame, .screencastCompleted]
            else
              .captureFrame :: nextFrame cfg t (frameIndex + 1) stopFlag fuel
          else
            .skipFrame :: nextFrame cfg t frameIndex stopFlag fuel := rfl

/-- Loop invariant lemma: with `startTime = 0`, a strictly positive frame
interval and `frameIndex < frameCount`, the remaining run captures exactly
`frameCount - frameIndex` frames then completes. -/
theorem nextFrame_run (fps du : ℚ) (n : ℕ) (hfps : 0 < fps) :
    ∀ (fuel k : ℕ) (t : ℚ), k < n → n - k ≤ fuel → 0 ≤ t →
    nextFrame ⟨fps, 0, du, (n : ℚ)⟩ t k false fuel
      = List.replicate (n - k) CaptureEvent.captureFrame
        ++ [CaptureEvent.screencastCompleted] := by
  intro fuel
  induction fuel with
  | zero =>
    intro k t hk hfuel _
    omega
  | succ f ih =>
    intro k t hk _ ht
    rw [nextFrame_succ]
    simp only [Bool.false_eq_true, if_false]
    have hint : 0 < 1000 / fps := by positivity
    have ht' : t + 1000 / fps ≥ (0 : ℚ) := by linarith
    rw [if_pos ht']
    by_cases hlast : ((k : ℚ) + 1 ≥ (n : ℚ))
    · rw [if_pos hlast]
      have : n ≤ k + 1 := by exact_mod_cast hlast
      have hnk : n - k = 1 := by omega
      rw [hnk]
      rfl
    · rw [if_neg hlast]
      have hklt : k + 1 < n := by
        by_contra hcon
        exact hlast (by exact_mod_cast Nat.le_of_not_lt hcon)
      rw [ih (k + 1) (t + 1000 / fps) hklt (by omega) (le_of_lt (by linarith))]
      have hnk : n - k = (n - (k + 1)) + 1 := by omega
      rw [hnk, List.replicate_succ]
      rfl

/-- C1: with a finite positive duration and fps and no explicit frameCount,
the derived target frame count is `floor(duration*fps/1000)`; and with
`config.startTime = 0` and no stop, pause, or capture failure, the capture
loop invokes `captureFrame` exactly `frameCount` times and then notifies
`screencastCompleted`. -/
theorem captureLoop_exact_frameCount (duration fps : ℚ) (n fuel : ℕ)
    (hfps : 0 < fps)
    (hn : (n : ℤ) = durationToFrameCount duration fps)
    (hpos : 1 ≤ n) (hfuel : n ≤ fuel) :
    (n : ℤ) = ⌊duration * fps / 1000⌋
    ∧ nextFrame ⟨fps, 0, duration, (n : ℚ)⟩ 0 0 false fuel
        = List.replicate n CaptureEvent.captureFrame
          ++ [CaptureEvent.screencastCompleted] := by
  constructor
  · rw [hn]
    unfold durationToFrameCount
    rw [div_mul_eq_mul_div]
  · have := nextFrame_run fps duration n hfps fuel 0 0 (by omega) (by omega) le_rfl
    simpa using this

/-- Witness for `captureLoop_exact_frameCount`: `duration = 300` ms at
`fps = 10` gives 3 frames; the loop emits 3 `captureFrame`s then
`screencastCompleted`. -/
theorem captureLoop_exact_frameCount_witness :
    ((0 : ℚ) < 10 ∧ ((3 : ℕ) : ℤ) = durationToFrameCount 300 10
      ∧ 1 ≤ 3 ∧ 3 ≤ 3)
    ∧ (((3 : ℕ) : ℤ) = ⌊(300 : ℚ) * 10 / 1000⌋
      ∧ nextFrame ⟨10, 0, 300, ((3 : ℕ) : ℚ)⟩ 0 0 false 3
          = List.replicate 3 CaptureEvent.captureFrame
            ++ [CaptureEvent.screencastCompleted]) :=
  ⟨⟨by norm_num, by norm_num [durationToFrameCount], by norm_num, le_rfl⟩,
    captureLoop_exact_frameCount 300 10 3 3 (by norm_num)
      (by norm_num [durationToFrameCount]) (by norm_num) le_rfl⟩

/-! ## VideoChunk / ChunkSynthesizer duration and audio-offset accounting
`src/index.cjs`: `Synthesizer.getOutputDuration` (lines 7131-7134),
`VideoChunk.getOutputDuration` (7678-7680), `Transition` (7601-7602),
`ChunkSynthesizer.input` (8048-8066), `ChunkSynthesizer.start` (8076-8099)
and `ChunkSynthesizer.renderChunk`'s `audioAdd` handler (8111-8119). -/

/-- A transition (`Transition`): only its `duration` matters here. -/
structure ChunkTransition where
  duration : ℚ
deriving DecidableEq

/-- An audio descriptor as the offset logic sees it: `startTime`/`endTime`
are `none` when not a finite number (unset). -/
structure ChunkAudio where
  startTime : Option ℚ
  endTime : Option ℚ
deriving DecidableEq

/-- The accounting-relevant state of a `VideoChunk`: configured `duration`,
optional `transition`, `fps`, the number of frames already written by its
encoder (`_frameCount`, 0 until the chunk starts rendering), the audio
descriptors already on the chunk (`audios`), those it will emit via
`audioAdd` while rendering (`emitted`), and its completion flag. -/
structure VideoChunk where
  duration : ℚ
  transition : Option ChunkTransition
  fps : ℚ
  frameCount : ℕ
  audios : List ChunkAudio
  emitted : List ChunkAudio
  completed : Bool
deriving DecidableEq

/-- `VideoChunk.transitionDuration` getter: `transition ? transition.duration : 0`. -/
def transitionDuration (c : VideoChunk) : ℚ :=
  match c.transition with
  | some tr => tr.duration
  | none => 0

/-- `Synthesizer.getOutputDuration`: `duration` while `!this.fps ||
!this._frameCount` (the `|| 0` on a falsy duration returns the same `0`),
else `Math.floor(_frameCount / fps) * 1000`. -/
def synthGetOutputDuration (duration fps : ℚ) (frameCount : ℕ) : ℚ :=
  if fps = 0 ∨ frameCount = 0 then duration
  else ((⌊(frameCount : ℚ) / fps⌋ : ℤ) : ℚ) * 1000

/-- `VideoChunk.getOutputDuration`: the synthesizer output duration minus
the transition duration. -/
def chunkGetOutputDuration (c : VideoChunk) : ℚ :=
  synthGetOutputDuration c.duration c.fps c.frameCount - transitionDuration c

/-- `ChunkSynthesizer.input`'s running total: `this.duration +=
chunk.getOutputDuration()`. -/
def chunkSynthInputDuration (total : ℚ) (c : VideoChunk) : ℚ :=
  total + chunkGetOutputDuration c

/-- Total duration after feeding `chunks` in order to a fresh
`ChunkSynthesizer` (whose constructor sets `duration = 0`). -/
def chunkSynthDuration (chunks : List VideoChunk) : ℚ :=
  chunks.foldl chunkSynthInputDuration 0

/-- The offsetting applied to one audio descriptor by
`ChunkSynthesizer.start` / `renderChunk`: default a non-finite `startTime`
to `0` and a non-finite `endTime` to the chunk's `duration`, then add the
chunk's cumulative `offsetTime` to both. -/
def offsetAudio (offset chunkDuration : ℚ) (a : ChunkAudio) : ChunkAudio :=
  { startTime := some (a.startTime.getD 0 + offset),
    endTime := some (a.endTime.getD chunkDuration + offset) }

/-- The synchronous `forEach` of `ChunkSynthesizer.start`: for each chunk,
add its on-chunk audios offset by the accumulated `offsetTime`, schedule
`renderChunk(chunk, offsetTime)` when the chunk is not completed, then
advance `offsetTime += chunk.getOutputDuration()`.  Returns the audios
added to the composite and the `(chunk, offsetTime)` pairs passed to
`renderChunk`. -/
def chunkSynthStart : List VideoChunk → ℚ →
    List ChunkAudio × List (VideoChunk × ℚ)
  | [], _ => ([], [])
  | c :: rest, offset =>
    let added := c.audios.map (offsetAudio offset c.duration)
    let renders := if c.completed then [] else [(c, offset)]
    let next := chunkSynthStart rest (offset + chunkGetOutputDuration c)
    (added ++ next.1, renders ++ next.2)

/-- The `audioAdd` handler installed by `ChunkSynthesizer.renderChunk` on a
chunk rendered at offset `offset`: each emitted audio is added to the
composite with the same defaulting/offsetting as in `start`. -/
def renderChunkEmittedAudios (c : VideoChunk) (offset : ℚ) : List ChunkAudio :=
  c.emitted.map (offsetAudio offset c.duration)

/-- Sum of the effective durations (`duration - transition.duration`) of
the first `i` chunks. -/
def effDurationsBefore (chunks : List VideoChunk) (i : ℕ) : ℚ :=
  ((chunks.take i).map (fun c => c.duration - transitionDuration c)).sum

/-- For an unrendered chunk (`_frameCount = 0`), `getOutputDuration()` is
`duration - transition.duration` (a missing transition contributing 0). -/
theorem chunkGetOutputDuration_unrendered (c : VideoChunk)
    (h : c.frameCount = 0) :
    chunkGetOutputDuration c = c.duration - transitionDuration c := by
  unfold chunkGetOutputDuration synthGetOutputDuration
  rw [if_pos (Or.inr h)]

theorem chunkSynthDuration_spec (chunks : List VideoChunk)
    (h : ∀ c ∈ chunks, c.frameCount = 0) :
    chunkSynthDuration chunks
      = (chunks.map (fun c => c.duration - transitionDuration c)).sum := by
  unfold chunkSynthDuration
  have hgen : ∀ (l : List VideoChunk), (∀ c ∈ l, c.frameCount = 0) → ∀ (a : ℚ),
      l.foldl chunkSynthInputDuration a
        = a + (l.map (fun c => c.duration - transitionDuration c)).sum := by
    intro l
    induction l with
    | nil =>
      intro _ a
      simp
    | cons c rest ih =>
      intro hl a
      rw [List.foldl_cons,
        ih (fun d hd => hl d (List.mem_cons_of_mem _ hd))]
      have hc := chunkGetOutputDuration_unrendered c (hl c (by simp))
      simp only [chunkSynthInputDuration, hc, List.map_cons, List.sum_cons]
      ring
  simpa using hgen chunks h 0

/-- The cumulative `offsetTime` values at which `ChunkSynthesizer.start`
visits each chunk: a running prefix sum of effective durations
(`duration - transition.duration`), starting from `acc`. -/
def effOffsets : List VideoChunk → ℚ → List ℚ
  | [], _ => []
  | c :: rest, acc => acc :: effOffsets rest (acc + (c.duration - transitionDuration c))

theorem effOffsets_length (chunks : List VideoChunk) :
    ∀ (acc : ℚ), (effOffsets chunks acc).length = chunks.length := by
  induction chunks with
  | nil =>
    intro acc
    rfl
  | cons c rest ih =>
    intro acc
    simp [effOffsets, ih]

theorem effOffsets_get (chunks : List VideoChunk) :
    ∀ (acc : ℚ) (i : ℕ) (hi : i < (effOffsets chunks acc).length),
    (effOffsets chunks acc).get ⟨i, hi⟩ = acc + effDurationsBefore chunks i := by
  induction chunks with
  | nil =>
    intro acc i hi
    simp [effOffsets] at hi
  | cons c rest ih =>
    intro acc i hi
    cases i with
    | zero =>
      simp [effOffsets, effDurationsBefore]
    | succ j =>
      have hj : j < (effOffsets rest (acc + (c.duration - transitionDuration c))).length := by
        simpa [effOffsets] using hi
      have := ih (acc + (c.duration - transitionDuration c)) j hj
      simp only [effOffsets, List.get_cons_succ]
      rw [this]
      simp only [effDurationsBefore, List.take_succ_cons, List.map_cons,
        List.sum_cons]
      ring

theorem chunkSynthStart_zip (chunks : List VideoChunk)
    (h : ∀ c ∈ chunks, c.frameCount = 0) :
    ∀ (off : ℚ),
    chunkSynthStart chunks off
      = ((chunks.zip (effOffsets chunks off)).flatMap
           (fun p => p.1.audios.map (offsetAudio p.2 p.1.duration)),
         (chunks.zip (effOffsets chunks off)).filterMap
           (fun p => if p.1.completed then none else some p)) := by
  induction chunks with
  | nil =>
    intro off
    simp [chunkSynthStart, effOffsets]
  | cons c rest ih =>
    intro off
    have hc := chunkGetOutputDuration_unrendered c (h c (by simp))
    have hrest : ∀ d ∈ rest, d.frameCount = 0 :=
      fun d hd => h d (List.mem_cons_of_mem _ hd)
    rw [chunkSynthStart, ih hrest (off + chunkGetOutputDuration c), hc]
    simp only [effOffsets, List.zip_cons_cons, List.flatMap_cons,
      List.filterMap_cons]
    by_cases hcomp : c.completed
    · simp [hcomp]
    · simp [hcomp]

/-- C4: feeding chunks `c_1..c_n` to a `ChunkSynthesizer` before any has
been rendered (`_frameCount = 0`), the synthesizer's total duration is
`Σ (c_i.duration - c_i.transition.duration)`, a chunk without a transition
contributing transition duration 0. -/
theorem chunkSynthDuration_total (chunks : List VideoChunk)
    (h : ∀ c ∈ chunks, c.frameCount = 0) :
    chunkSynthDuration chunks
      = (chunks.map (fun c => c.duration - transitionDuration c)).sum :=
  chunkSynthDuration_spec chunks h

/-- Witness for `chunkSynthDuration_total` on two concrete chunks
(1000 ms with a 100 ms transition, then 2000 ms without). -/
theorem chunkSynthDuration_total_witness :
    (∀ c ∈ [VideoChunk.mk 1000 (some (ChunkTransition.mk 100)) 30 0 [] [] false,
            VideoChunk.mk 2000 none 30 0 [] [] false], c.frameCount = 0)
    ∧ chunkSynthDuration
        [VideoChunk.mk 1000 (some (ChunkTransition.mk 100)) 30 0 [] [] false,
         VideoChunk.mk 2000 none 30 0 [] [] false]
      = ([VideoChunk.mk 1000 (some (ChunkTransition.mk 100)) 30 0 [] [] false,
          VideoChunk.mk 2000 none 30 0 [] [] false].map
          (fun c => c.duration - transitionDuration c)).sum :=
  ⟨by decide, chunkSynthDuration_total _ (by decide)⟩

/-- C5: when `ChunkSynthesizer.start()` runs over unrendered chunks, the
audios already on chunk `i` are added offset by the cumulative effective
duration of chunks before `i`, `renderChunk` is invoked for each
uncompleted chunk with that same captured offset (so audios emitted while
it renders get the same offset), the `i`-th entry of the offset list is
`Σ_{j<i} (duration_j - transition_j.duration)`, and each offset audio has
`startTime = local startTime (default 0) + offset` and
`endTime = local endTime (default chunk.duration) + offset`. -/
theorem chunkSynthStart_audio_offsets (chunks : List VideoChunk)
    (h : ∀ c ∈ chunks, c.frameCount = 0) :
    (chunkSynthStart chunks 0).1
      = (chunks.zip (effOffsets chunks 0)).flatMap
          (fun p => p.1.audios.map (offsetAudio p.2 p.1.duration))
    ∧ (chunkSynthStart chunks 0).2
      = (chunks.zip (effOffsets chunks 0)).filterMap
          (fun p => if p.1.completed then none else some p)
    ∧ (∀ (i : ℕ) (hi : i < (effOffsets chunks 0).length),
        (effOffsets chunks 0).get ⟨i, hi⟩ = effDurationsBefore chunks i)
    ∧ (∀ (c : VideoChunk) (off : ℚ),
        renderChunkEmittedAudios c off
          = c.emitted.map (fun a =>
              ChunkAudio.mk (some (a.startTime.getD 0 + off))
                (some (a.endTime.getD c.duration + off)))) := by
  have hz := chunkSynthStart_zip chunks h 0
  refine ⟨?_, ?_, ?_, ?_⟩
  · rw [hz]
  · rw [hz]
  · intro i hi
    rw [effOffsets_get chunks 0 i hi, zero_add]
  · intro c off
    rfl

/-- Witness for `chunkSynthStart_audio_offsets` on two concrete chunks,
the first carrying an audio with unset `endTime` and a 100 ms transition. -/
theorem chunkSynthStart_audio_offsets_witness :
    (∀ c ∈ [VideoChunk.mk 1000 (some (ChunkTransition.mk 100)) 30 0
              [ChunkAudio.mk (some 10) none] [ChunkAudio.mk none (some 50)] false,
            VideoChunk.mk 2000 none 30 0 [ChunkAudio.mk none none] [] false],
        c.frameCount = 0)
    ∧ ((chunkSynthStart [VideoChunk.mk 1000 (some (ChunkTransition.mk 100)) 30 0
              [ChunkAudio.mk (some 10) none] [ChunkAudio.mk none (some 50)] false,
            VideoChunk.mk 2000 none 30 0 [ChunkAudio.mk none none] [] false] 0).1
        = ([VideoChunk.mk 1000 (some (ChunkTransition.mk 100)) 30 0
              [ChunkAudio.mk (some 10) none] [ChunkAudio.mk none (some 50)] false,
            VideoChunk.mk 2000 none 30 0 [ChunkAudio.mk none none] [] false].zip
            (effOffsets [VideoChunk.mk 1000 (some (ChunkTransition.mk 100)) 30 0
              [ChunkAudio.mk (some 10) none] [ChunkAudio.mk none (some 50)] false,
            VideoChunk.mk 2000 none 30 0 [ChunkAudio.mk none none] [] false] 0)).flatMap
            (fun p => p.1.audios.map (offsetAudio p.2 p.1.duration))
      ∧ (chunkSynthStart [VideoChunk.mk 1000 (some (ChunkTransition.mk 100)) 30 0
              [ChunkAudio.mk (some 10) none] [ChunkAudio.mk none (some 50)] false,
            VideoChunk.mk 2000 none 30 0 [ChunkAudio.mk none none] [] false] 0).2
        = ([VideoChunk.mk 1000 (some (ChunkTransition.mk 100)) 30 0
              [ChunkAudio.mk (some 10) none] [ChunkAudio.mk none (some 50)] false,
            VideoChunk.mk 2000 none 30 0 [ChunkAudio.mk none none] [] false].zip
            (effOffsets [VideoChunk.mk 1000 (some (ChunkTransition.mk 100)) 30 0
              [ChunkAudio.mk (some 10) none] [ChunkAudio.mk none (some 50)] false,
            VideoChunk.mk 2000 none 30 0 [ChunkAudio.mk none none] [] false] 0)).filterMap
            (fun p => if p.1.completed then none else some p)
      ∧ (∀ (i : ℕ) (hi : i < (effOffsets [VideoChunk.mk 1000 (some (ChunkTransition.mk 100)) 30 0
              [ChunkAudio.mk (some 10) none] [ChunkAudio.mk none (some 50)] false,
            VideoChunk.mk 2000 none 30 0 [ChunkAudio.mk none none] [] false] 0).length),
          (effOffsets [VideoChunk.mk 1000 (some (ChunkTransition.mk 100)) 30 0
              [ChunkAudio.mk (some 10) none] [ChunkAudio.mk none (some 50)] false,
            VideoChunk.mk 2000 none 30 0 [ChunkAudio.mk none none] [] false] 0).get ⟨i, hi⟩
            = effDurationsBefore [VideoChunk.mk 1000 (some (ChunkTransition.mk 100)) 30 0
              [ChunkAudio.mk (some 10) none] [ChunkAudio.mk none (some 50)] false,
            VideoChunk.mk 2000 none 30 0 [ChunkAudio.mk none none] [] false] i)
      ∧ (∀ (c : VideoChunk) (off : ℚ),
          renderChunkEmittedAudios c off
            = c.emitted.map (fun a =>
                ChunkAudio.mk (some (a.startTime.getD 0 + off))
                  (some (a.endTime.getD c.duration + off))))) :=
  ⟨by decide, chunkSynthStart_audio_offsets _ (by decide)⟩

/-! ## Time-virtualized timers
`src/index.cjs` lines 4146-4192 (`CaptureContext._timeVirtualizationRewrite`:
the `setInterval`/`clearInterval`/`setTimeout`/`clearTimeout` shims) and
lines 4264-4292 (`_callIntervalCallbacks` / `_callTimeoutCallbacks`).
The shim claim concerns calls where `fn` is a function and the delay is
numeric, i.e. the `typeof fn !== "function" || isNaN(...)` guard passes;
callbacks are identified by an abstract tag `fn : ℕ`. -/

/-- One queued timer: `[timerId, timestamp, delay, fn]`. -/
structure TimerEntry where
  id : ℤ
  timestamp : ℚ
  delay : ℚ
  fn : ℕ
deriving DecidableEq

/-- The timer-relevant state of a `CaptureContext`. -/
structure ShimState where
  timerId : ℤ
  intervalCallbacks : List TimerEntry
  timeoutCallbacks : List TimerEntry
  currentTime : ℚ
deriving DecidableEq

/-- Field initializers: `timerId = 0`, empty queues, `currentTime = 0`. -/
def initShimState : ShimState := ⟨0, [], [], 0⟩

/-- The rewritten `setTimeout(fn, timeout)`: `this.timerId--`, push
`[timerId, currentTime, timeout, fn]`, return the new (negative) id. -/
def setTimeoutShim (st : ShimState) (fn : ℕ) (timeout : ℚ) : ShimState × ℤ :=
  let newId := st.timerId - 1
  (ShimState.mk newId st.intervalCallbacks
    (st.timeoutCallbacks ++ [TimerEntry.mk newId st.currentTime timeout fn])
    st.currentTime, newId)

/-- The rewritten `setInterval(fn, interval)`. -/
def setIntervalShim (st : ShimState) (fn : ℕ) (interval : ℚ) : ShimState × ℤ :=
  let newId := st.timerId - 1
  (ShimState.mk newId
    (st.intervalCallbacks ++ [TimerEntry.mk newId st.currentTime interval fn])
    st.timeoutCallbacks st.currentTime, newId)

/-- The rewritten `clearTimeout(timerId)`: `if (!timerId) return` (id 0 is
falsy: no delegation, no removal); `timerId >= 0` delegates to the
preserved `____clearTimeout` (the returned flag); a negative id filters
the queue.  -/
def clearTimeoutShim (st : ShimState) (timerId : ℤ) : ShimState × Bool :=
  if timerId = 0 then (st, false)
  else if 0 ≤ timerId then (st, true)
  else (ShimState.mk st.timerId st.intervalCallbacks
          (st.timeoutCallbacks.filter (fun e => decide (e.id ≠ timerId)))
          st.currentTime, false)

/-- The rewritten `clearInterval(timerId)`. -/
def clearIntervalShim (st : ShimState) (timerId : ℤ) : ShimState × Bool :=
  if timerId = 0 then (st, false)
  else if 0 ≤ timerId then (st, true)
  else (ShimState.mk st.timerId
          (st.intervalCallbacks.filter (fun e => decide (e.id ≠ timerId)))
          st.timeoutCallbacks st.currentTime, false)

/-- A queued timer is due at `currentTime` when
`!(currentTime < timestamp + delay)`. -/
def dueTimer (t : ℚ) (e : TimerEntry) : Bool :=
  !(decide (t < e.timestamp + e.delay))

/-- `CaptureContext._callIntervalCallbacks(currentTime)`: walk the queue in
order; every due entry has its timestamp reset to `currentTime` and its
callback scheduled on the real event loop (collected in order in the second
component); entries stay queued. -/
def callIntervalCallbacks : List TimerEntry → ℚ → List TimerEntry × List ℕ
  | [], _ => ([], [])
  | e :: rest, t =>
    let next := callIntervalCallbacks rest t
    if t < e.timestamp + e.delay then (e :: next.1, next.2)
    else ({ e with timestamp := t } :: next.1, e.fn :: next.2)

/-- `CaptureContext._callTimeoutCallbacks(currentTime)`: filter the queue in
order; every due entry is removed and its callback scheduled (collected in
order in the second component). -/
def callTimeoutCallbacks : List TimerEntry → ℚ → List TimerEntry × List ℕ
  | [], _ => ([], [])
  | e :: rest, t =>
    let next := callTimeoutCallbacks rest t
    if t < e.timestamp + e.delay then (e :: next.1, next.2)
    else (next.1, e.fn :: next.2)

/-- One capture-loop tick's timer phase (lines 3940-3943): intervals are
dispatched first, then timeouts; both schedule via the preserved real
`setTimeout(..., 0)` so the collected order is the real dispatch order. -/
def tickDispatch (st : ShimState) (t : ℚ) : ShimState × List ℕ :=
  let iv := callIntervalCallbacks st.intervalCallbacks t
  let tm := callTimeoutCallbacks st.timeoutCallbacks t
  (ShimState.mk st.timerId iv.1 tm.1 t, iv.2 ++ tm.2)

/-- Everything page code (or the loop) can do to the timer state. -/
inductive ShimOp where
  | setTimeoutOp (fn : ℕ) (timeout : ℚ)
  | setIntervalOp (fn : ℕ) (interval : ℚ)
  | clearTimeoutOp (id : ℤ)
  | clearIntervalOp (id : ℤ)
  | tick (t : ℚ)

/-- Apply one operation to the shim state. -/
def applyShimOp (st : ShimState) : ShimOp → ShimState
  | .setTimeoutOp fn d => (setTimeoutShim st fn d).1
  | .setIntervalOp fn p => (setIntervalShim st fn p).1
  | .clearTimeoutOp i => (clearTimeoutShim st i).1
  | .clearIntervalOp i => (clearIntervalShim st i).1
  | .tick t => (tickDispatch st t).1

/-- The timer state reached from a fresh `CaptureContext` by a sequence of
operations. -/
def runShim (ops : List ShimOp) : ShimState :=
  ops.foldl applyShimOp initShimState

/-- The ids of all queued timers (both queues). -/
def shimIds (st : ShimState) : List ℤ :=
  (st.intervalCallbacks ++ st.timeoutCallbacks).map TimerEntry.id

/-- Reachable-state invariant: the id counter is non-positive, every queued
id lies in `[timerId, 0)`, and queued ids are pairwise distinct. -/
def ShimInv (st : ShimState) : Prop :=
  st.timerId ≤ 0
  ∧ (∀ i ∈ shimIds st, st.timerId ≤ i ∧ i < 0)
  ∧ (shimIds st).Nodup

theorem callIntervalCallbacks_ids (q : List TimerEntry) (t : ℚ) :
    ((callIntervalCallbacks q t).1).map TimerEntry.id = q.map TimerEntry.id := by
  induction q with
  | nil => rfl
  | cons e rest ih =>
    rw [callIntervalCallbacks]
    by_cases hdue : t < e.timestamp + e.delay
    · simp only [if_pos hdue, List.map_cons, ih]
    · simp only [if_neg hdue, List.map_cons, ih]

theorem callTimeoutCallbacks_sublist (q : List TimerEntry) (t : ℚ) :
    ((callTimeoutCallbacks q t).1).Sublist q := by
  induction q with
  | nil => exact List.Sublist.refl _
  | cons e rest ih =>
    rw [callTimeoutCallbacks]
    by_cases hdue : t < e.timestamp + e.delay
    · simpa only [if_pos hdue] using ih.cons₂ e
    · simpa only [if_neg hdue] using ih.cons e

theorem countP_id_eq_count (l : List TimerEntry) (i : ℤ) :
    l.countP (fun e => decide (e.id = i)) = (l.map TimerEntry.id).count i := by
  induction l with
  | nil => rfl
  | cons e rest ih =>
    rw [List.countP_cons, List.map_cons, List.count_cons, ih]
    by_cases hei : e.id = i
    · simp [hei]
    · simp [hei]

theorem shimInv_init : ShimInv initShimState := by
  refine ⟨le_refl 0, ?_, ?_⟩
  · intro i hi
    simp [shimIds, initShimState] at hi
  · simp [shimIds, initShimState]

theorem shimIds_setTimeout (st : ShimState) (fn : ℕ) (d : ℚ) :
    List.Perm (shimIds (setTimeoutShim st fn d).1)
      ((st.timerId - 1) :: shimIds st) := by
  simp only [shimIds, setTimeoutShim, List.map_append, List.map_cons,
    List.map_nil, ← List.append_assoc]
  exact List.perm_append_comm

theorem shimIds_setInterval (st : ShimState) (fn : ℕ) (d : ℚ) :
    List.Perm (shimIds (setIntervalShim st fn d).1)
      ((st.timerId - 1) :: shimIds st) := by
  simp only [shimIds, setIntervalShim, List.map_append, List.map_cons,
    List.map_nil, List.append_assoc, List.singleton_append]
  exact List.perm_middle

theorem shimInv_apply (st : ShimState) (hinv : ShimInv st) (op : ShimOp) :
    ShimInv (applyShimOp st op) := by
  obtain ⟨hid, hmem, hnd⟩ := hinv
  cases op with
  | setTimeoutOp fn d =>
    have hperm := shimIds_setTimeout st fn d
    refine ⟨by simp only [applyShimOp, setTimeoutShim]; omega, ?_, ?_⟩
    · intro i hi
      have hcons : i ∈ (st.timerId - 1) :: shimIds st := hperm.mem_iff.mp hi
      simp only [applyShimOp, setTimeoutShim]
      rcases List.mem_cons.mp hcons with h | h
      · omega
      · have := hmem i h
        omega
    · refine hperm.nodup_iff.mpr (List.nodup_cons.mpr ⟨?_, hnd⟩)
      intro hin
      have := hmem _ hin
      omega
  | setIntervalOp fn d =>
    have hperm := shimIds_setInterval st fn d
    refine ⟨by simp only [applyShimOp, setIntervalShim]; omega, ?_, ?_⟩
    · intro i hi
      have hcons : i ∈ (st.timerId - 1) :: shimIds st := hperm.mem_iff.mp hi
      simp only [applyShimOp, setIntervalShim]
      rcases List.mem_cons.mp hcons with h | h
      · omega
      · have := hmem i h
        omega
    · refine hperm.nodup_iff.mpr (List.nodup_cons.mpr ⟨?_, hnd⟩)
      intro hin
      have := hmem _ hin
      omega
  | clearTimeoutOp i =>
    simp only [applyShimOp, clearTimeoutShim]
    by_cases h0 : i = 0
    · rw [if_pos h0]
      exact ⟨hid, hmem, hnd⟩
    · rw [if_neg h0]
      by_cases hge : 0 ≤ i
      · rw [if_pos hge]
        exact ⟨hid, hmem, hnd⟩
      · rw [if_neg hge]
        have hsub : List.Sublist
            (shimIds (ShimState.mk st.timerId st.intervalCallbacks
              (st.timeoutCallbacks.filter (fun e => decide (e.id ≠ i)))
              st.currentTime))
            (shimIds st) := by
          simp only [shimIds]
          exact (List.Sublist.append (List.Sublist.refl _)
            (List.filter_sublist _)).map TimerEntry.id
        exact ⟨hid, fun j hj => hmem j (hsub.mem hj), hnd.sublist hsub⟩
  | clearIntervalOp i =>
    simp only [applyShimOp, clearIntervalShim]
    by_cases h0 : i = 0
    · rw [if_pos h0]
      exact ⟨hid, hmem, hnd⟩
    · rw [if_neg h0]
      by_cases hge : 0 ≤ i
      · rw [if_pos hge]
        exact ⟨hid, hmem, hnd⟩
      · rw [if_neg hge]
        have hsub : List.Sublist
            (shimIds (ShimState.mk st.timerId
              (st.intervalCallbacks.filter (fun e => decide (e.id ≠ i)))
              st.timeoutCallbacks st.currentTime))
            (shimIds st) := by
          simp only [shimIds]
          exact (List.Sublist.append (List.filter_sublist _)
            (List.Sublist.refl _)).map TimerEntry.id
        exact ⟨hid, fun j hj => hmem j (hsub.mem hj), hnd.sublist hsub⟩
  | tick t =>
    have hiv := callIntervalCallbacks_ids st.intervalCallbacks t
    have htm := callTimeoutCallbacks_sublist st.timeoutCallbacks t
    have hids : shimIds (applyShimOp st (ShimOp.tick t))
        = ((callIntervalCallbacks st.intervalCallbacks t).1).map TimerEntry.id
          ++ ((callTimeoutCallbacks st.timeoutCallbacks t).1).map TimerEntry.id := by
      simp [applyShimOp, tickDispatch, shimIds]
    have hold : shimIds st
        = st.intervalCallbacks.map TimerEntry.id
          ++ st.timeoutCallbacks.map TimerEntry.id := by
      simp [shimIds]
    rw [hold] at hmem hnd
    refine ⟨hid, ?_, ?_⟩
    · intro j hj
      rw [hids, hiv] at hj
      rcases List.mem_append.mp hj with h | h
      · exact hmem j (List.mem_append.mpr (Or.inl h))
      · exact hmem j (List.mem_append.mpr (Or.inr ((htm.map TimerEntry.id).mem h)))
    · rw [hids, hiv]
      rw [List.nodup_append] at hnd ⊢
      obtain ⟨h1, h2, h3⟩ := hnd
      exact ⟨h1, h2.sublist (htm.map TimerEntry.id),
        fun _ ha hb => h3 ha ((htm.map TimerEntry.id).mem hb)⟩

theorem shimInv_run (ops : List ShimOp) : ShimInv (runShim ops) := by
  rw [runShim]
  have hgen : ∀ (l : List ShimOp) (st : ShimState), ShimInv st →
      ShimInv (l.foldl applyShimOp st) := by
    intro l
    induction l with
    | nil =>
      intro st hst
      exact hst
    | cons op rest ih =>
      intro st hst
      exact ih _ (shimInv_apply st hst op)
  exact hgen ops initShimState shimInv_init

theorem callIntervalCallbacks_queue (q : List TimerEntry) (t : ℚ) :
    (callIntervalCallbacks q t).1
      = q.map (fun e => if dueTimer t e then { e with timestamp := t } else e) := by
  induction q with
  | nil => rfl
  | cons e rest ih =>
    rw [callIntervalCallbacks, List.map_cons]
    by_cases hdue : t < e.timestamp + e.delay
    · have : dueTimer t e = false := by simp [dueTimer, hdue]
      simp only [if_pos hdue, this, Bool.false_eq_true, if_false, ih]
    · have : dueTimer t e = true := by simp [dueTimer, hdue]
      simp only [if_neg hdue, this, if_true, ih]

theorem callIntervalCallbacks_sched (q : List TimerEntry) (t : ℚ) :
    (callIntervalCallbacks q t).2
      = (q.filter (dueTimer t)).map TimerEntry.fn := by
  induction q with
  | nil => rfl
  | cons e rest ih =>
    rw [callIntervalCallbacks, List.filter_cons]
    by_cases hdue : t < e.timestamp + e.delay
    · have : dueTimer t e = false := by simp [dueTimer, hdue]
      simp only [if_pos hdue, this, Bool.false_eq_true, if_false, ih]
    · have : dueTimer t e = true := by simp [dueTimer, hdue]
      simp only [if_neg hdue, this, if_true, List.map_cons, ih]

theorem callTimeoutCallbacks_queue (q : List TimerEntry) (t : ℚ) :
    (callTimeoutCallbacks q t).1
      = q.filter (fun e => !(dueTimer t e)) := by
  induction q with
  | nil => rfl
  | cons e rest ih =>
    rw [callTimeoutCallbacks, List.filter_cons]
    by_cases hdue : t < e.timestamp + e.delay
    · have : dueTimer t e = false := by simp [dueTimer, hdue]
      simp only [if_pos hdue, this, Bool.not_false, if_true, ih]
    · have : dueTimer t e = true := by simp [dueTimer, hdue]
      simp only [if_neg hdue, this, Bool.not_true, Bool.false_eq_true, if_false, ih]

theorem callTimeoutCallbacks_sched (q : List TimerEntry) (t : ℚ) :
    (callTimeoutCallbacks q t).2
      = (q.filter (dueTimer t)).map TimerEntry.fn := by
  induction q with
  | nil => rfl
  | cons e rest ih =>
    rw [callTimeoutCallbacks, List.filter_cons]
    by_cases hdue : t < e.timestamp + e.delay
    · have : dueTimer t e = false := by simp [dueTimer, hdue]
      simp only [if_pos hdue, this, Bool.false_eq_true, if_false, ih]
    · have : dueTimer t e = true := by simp [dueTimer, hdue]
      simp only [if_neg hdue, this, if_true, List.map_cons, ih]

/-- C8: in one capture-loop tick, every due interval callback is dispatched
before every due timeout callback, each category in queue (= insertion)
order; due intervals stay queued with their timestamp reset to the tick's
`currentTime`, and due timeouts are removed. -/
theorem tickDispatch_order (st : ShimState) (t : ℚ) :
    (tickDispatch st t).2
      = (st.intervalCallbacks.filter (dueTimer t)).map TimerEntry.fn
        ++ (st.timeoutCallbacks.filter (dueTimer t)).map TimerEntry.fn
    ∧ (tickDispatch st t).1.intervalCallbacks
        = st.intervalCallbacks.map
            (fun e => if dueTimer t e then { e with timestamp := t } else e)
    ∧ (tickDispatch st t).1.timeoutCallbacks
        = st.timeoutCallbacks.filter (fun e => !(dueTimer t e)) := by
  refine ⟨?_, ?_, ?_⟩
  · show (callIntervalCallbacks st.intervalCallbacks t).2
        ++ (callTimeoutCallbacks st.timeoutCallbacks t).2 = _
    rw [callIntervalCallbacks_sched, callTimeoutCallbacks_sched]
  · exact callIntervalCallbacks_queue st.intervalCallbacks t
  · exact callTimeoutCallbacks_queue st.timeoutCallbacks t

/-- C3 counterexample: `clearTimeout(0)` / `clearInterval(0)` on the
freshly initialized context hit the `if (!timerId) return` guard: the id
`0` is non-negative, yet the call does *not* delegate to the preserved
real function (flag `false`) — refuting "called with a non-negative ID
delegates to the preserved real function". -/
theorem clearTimeout_zero_counterexample :
    ((0 : ℤ) ≥ 0 ∧ clearTimeoutShim (runShim []) 0 = (runShim [], false))
    ∧ clearIntervalShim (runShim []) 0 = (runShim [], false) := by
  refine ⟨⟨le_refl 0, ?_⟩, ?_⟩ <;> rfl

/-- C3 amended: on any reachable timer state, `setTimeout`/`setInterval`
with a function and numeric delay return a strictly negative id and append
`(id, currentTime, delay, fn)` to their queue; `clearTimeout`/`clearInterval`
delegate to the preserved real function exactly on strictly positive ids,
are a no-op on id 0 (which the `!timerId` guard swallows), and on a
negative id remove precisely the queue entries carrying that id — of which
a reachable state has at most one. -/
theorem timerShim_spec (ops : List ShimOp) (st : ShimState)
    (hst : st = runShim ops) (fn : ℕ) (d : ℚ) (i : ℤ) :
    ((setTimeoutShim st fn d).2 < 0
      ∧ (setTimeoutShim st fn d).1.timeoutCallbacks
          = st.timeoutCallbacks
            ++ [TimerEntry.mk (setTimeoutShim st fn d).2 st.currentTime d fn]
      ∧ (setTimeoutShim st fn d).1.intervalCallbacks = st.intervalCallbacks)
    ∧ ((setIntervalShim st fn d).2 < 0
      ∧ (setIntervalShim st fn d).1.intervalCallbacks
          = st.intervalCallbacks
            ++ [TimerEntry.mk (setIntervalShim st fn d).2 st.currentTime d fn]
      ∧ (setIntervalShim st fn d).1.timeoutCallbacks = st.timeoutCallbacks)
    ∧ (0 < i →
        clearTimeoutShim st i = (st, true) ∧ clearIntervalShim st i = (st, true))
    ∧ (clearTimeoutShim st 0 = (st, false) ∧ clearIntervalShim st 0 = (st, false))
    ∧ (i < 0 →
        ((clearTimeoutShim st i).2 = false
          ∧ (clearTimeoutShim st i).1.timeoutCallbacks
              = st.timeoutCallbacks.filter (fun e => decide (e.id ≠ i))
          ∧ st.timeoutCallbacks.countP (fun e => decide (e.id = i)) ≤ 1)
        ∧ ((clearIntervalShim st i).2 = false
          ∧ (clearIntervalShim st i).1.intervalCallbacks
              = st.intervalCallbacks.filter (fun e => decide (e.id ≠ i))
          ∧ st.intervalCallbacks.countP (fun e => decide (e.id = i)) ≤ 1)) := by
  obtain ⟨hid, hmem, hnd⟩ : ShimInv st := hst ▸ shimInv_run ops
  have hndsplit := List.nodup_append.mp
    (by simpa only [shimIds, List.map_append] using hnd)
  refine ⟨⟨?_, rfl, rfl⟩, ⟨?_, rfl, rfl⟩, ?_, ⟨rfl, rfl⟩, ?_⟩
  · simp only [setTimeoutShim]
    omega
  · simp only [setIntervalShim]
    omega
  · intro hpos
    constructor
    · rw [clearTimeoutShim, if_neg (by omega), if_pos (by omega)]
    · rw [clearIntervalShim, if_neg (by omega), if_pos (by omega)]
  · intro hneg
    have hto : st.timeoutCallbacks.countP (fun e => decide (e.id = i)) ≤ 1 := by
      rw [countP_id_eq_count]
      exact List.nodup_iff_count_le_one.mp hndsplit.2.1 i
    have hiv : st.intervalCallbacks.countP (fun e => decide (e.id = i)) ≤ 1 := by
      rw [countP_id_eq_count]
      exact List.nodup_iff_count_le_one.mp hndsplit.1 i
    constructor
    · rw [clearTimeoutShim, if_neg (by omega), if_neg (by omega)]
      exact ⟨rfl, rfl, hto⟩
    · rw [clearIntervalShim, if_neg (by omega), if_neg (by omega)]
      exact ⟨rfl, rfl, hiv⟩

/-- Witness for `timerShim_spec` on the state reached by one
`setTimeout(fn 7, 100)`, probing `fn = 8`, `d = 50`, `i = -1`. -/
theorem timerShim_spec_witness :
    runShim [ShimOp.setTimeoutOp 7 100] = runShim [ShimOp.setTimeoutOp 7 100]
    ∧ (((setTimeoutShim (runShim [ShimOp.setTimeoutOp 7 100]) 8 50).2 < 0
      ∧ (setTimeoutShim (runShim [ShimOp.setTimeoutOp 7 100]) 8 50).1.timeoutCallbacks
          = (runShim [ShimOp.setTimeoutOp 7 100]).timeoutCallbacks
            ++ [TimerEntry.mk (setTimeoutShim (runShim [ShimOp.setTimeoutOp 7 100]) 8 50).2
                  (runShim [ShimOp.setTimeoutOp 7 100]).currentTime 50 8]
      ∧ (setTimeoutShim (runShim [ShimOp.setTimeoutOp 7 100]) 8 50).1.intervalCallbacks
          = (runShim [ShimOp.setTimeoutOp 7 100]).intervalCallbacks)
    ∧ ((setIntervalShim (runShim [ShimOp.setTimeoutOp 7 100]) 8 50).2 < 0
      ∧ (setIntervalShim (runShim [ShimOp.setTimeoutOp 7 100]) 8 50).1.intervalCallbacks
          = (runShim [ShimOp.setTimeoutOp 7 100]).intervalCallbacks
            ++ [TimerEntry.mk (setIntervalShim (runShim [ShimOp.setTimeoutOp 7 100]) 8 50).2
                  (runShim [ShimOp.setTimeoutOp 7 100]).currentTime 50 8]
      ∧ (setIntervalShim (runShim [ShimOp.setTimeoutOp 7 100]) 8 50).1.timeoutCallbacks
          = (runShim [ShimOp.setTimeoutOp 7 100]).timeoutCallbacks)
    ∧ ((0 : ℤ) < -1 →
        clearTimeoutShim (runShim [ShimOp.setTimeoutOp 7 100]) (-1)
            = (runShim [ShimOp.setTimeoutOp 7 100], true)
          ∧ clearIntervalShim (runShim [ShimOp.setTimeoutOp 7 100]) (-1)
            = (runShim [ShimOp.setTimeoutOp 7 100], true))
    ∧ (clearTimeoutShim (runShim [ShimOp.setTimeoutOp 7 100]) 0
          = (runShim [ShimOp.setTimeoutOp 7 100], false)
        ∧ clearIntervalShim (runShim [ShimOp.setTimeoutOp 7 100]) 0
          = (runShim [ShimOp.setTimeoutOp 7 100], false))
    ∧ ((-1 : ℤ) < 0 →
        ((clearTimeoutShim (runShim [ShimOp.setTimeoutOp 7 100]) (-1)).2 = false
          ∧ (clearTimeoutShim (runShim [ShimOp.setTimeoutOp 7 100]) (-1)).1.timeoutCallbacks
              = (runShim [ShimOp.setTimeoutOp 7 100]).timeoutCallbacks.filter
                  (fun e => decide (e.id ≠ (-1 : ℤ)))
          ∧ (runShim [ShimOp.setTimeoutOp 7 100]).timeoutCallbacks.countP
              (fun e => decide (e.id = (-1 : ℤ))) ≤ 1)
        ∧ ((clearIntervalShim (runShim [ShimOp.setTimeoutOp 7 100]) (-1)).2 = false
          ∧ (clearIntervalShim (runShim [ShimOp.setTimeoutOp 7 100]) (-1)).1.intervalCallbacks
              = (runShim [ShimOp.setTimeoutOp 7 100]).intervalCallbacks.filter
                  (fun e => decide (e.id ≠ (-1 : ℤ)))
          ∧ (runShim [ShimOp.setTimeoutOp 7 100]).intervalCallbacks.countP
              (fun e => decide (e.id = (-1 : ℤ))) ≤ 1))) :=
  ⟨rfl, timerShim_spec [ShimOp.setTimeoutOp 7 100]
    (runShim [ShimOp.setTimeoutOp 7 100]) rfl 8 50 (-1)⟩

/-! ## Decimal digit strings
Shared infrastructure: JavaScript renders numbers to decimal strings
(`Array.prototype.sort`'s default comparator stringifies; the packed
payload length header is decimal ASCII).  `natDigits` models the decimal
representation, `parseDec` the digit-run value used by `parseInt`. -/

/-- The ASCII digit character for `n < 10`. -/
def digitChar (n : ℕ) : Char := Char.ofNat (48 + n)

/-- Fueled most-significant-first decimal digits. -/
def natDigitsAux : ℕ → ℕ → List Char
  | 0, _ => []
  | fuel + 1, n =>
    if n < 10 then [digitChar n]
    else natDigitsAux fuel (n / 10) ++ [digitChar (n % 10)]

/-- The decimal representation of `n` (what JS `String(n)` produces for a
non-negative integer). -/
def natDigits (n : ℕ) : List Char := natDigitsAux (n + 1) n

/-- Value of a digit run, as accumulated by `parseInt` over digits. -/
def parseDec (cs : List Char) : ℕ :=
  cs.foldl (fun acc c => acc * 10 + (c.toNat - 48)) 0

theorem digitChar_toNat (n : ℕ) (h : n < 10) : (digitChar n).toNat = 48 + n := by
  interval_cases n <;> decide

theorem natDigitsAux_irrel (fuel fuel' n : ℕ) (h : n < fuel) (h' : n < fuel') :
    natDigitsAux fuel n = natDigitsAux fuel' n := by
  induction fuel using Nat.strong_induction_on generalizing n fuel' with
  | _ fuel ih =>
    match fuel, h with
    | f + 1, h =>
      match fuel', h' with
      | f' + 1, h' =>
        rw [natDigitsAux, natDigitsAux]
        by_cases h10 : n < 10
        · rw [if_pos h10, if_pos h10]
        · rw [if_neg h10, if_neg h10]
          have hn : 0 < n := by omega
          have hdiv : n / 10 < n := Nat.div_lt_self hn (by norm_num)
          rw [ih f (lt_add_one f) f' (n / 10) (by omega) (by omega)]

theorem natDigitsAux_foldl (fuel n : ℕ) (h : n < fuel) :
    ∀ (init : ℕ),
    (natDigitsAux fuel n).foldl (fun acc c => acc * 10 + (c.toNat - 48)) init
      = init * 10 ^ (natDigitsAux fuel n).length + n := by
  induction fuel using Nat.strong_induction_on generalizing n with
  | _ fuel ih =>
    match fuel, h with
    | f + 1, h =>
      intro init
      rw [natDigitsAux]
      by_cases h10 : n < 10
      · rw [if_pos h10]
        simp [List.foldl_cons, digitChar_toNat n h10]
      · rw [if_neg h10]
        have hn : 0 < n := by omega
        have hdiv : n / 10 < n := Nat.div_lt_self hn (by norm_num)
        rw [List.foldl_append, ih f (lt_add_one _) (n / 10) (by omega) init]
        simp only [List.foldl_cons, List.foldl_nil, List.length_append,
          List.length_singleton]
        rw [digitChar_toNat (n % 10) (Nat.mod_lt n (by norm_num))]
        have : 48 + n % 10 - 48 = n % 10 := by omega
        rw [this, pow_succ]
        have hmod := Nat.div_add_mod n 10
        ring_nf
        omega

theorem parseDec_natDigits (n : ℕ) : parseDec (natDigits n) = n := by
  have := natDigitsAux_foldl (n + 1) n (lt_add_one n) 0
  simpa [parseDec, natDigits] using this

theorem natDigits_injective (a b : ℕ) (h : natDigits a = natDigits b) : a = b := by
  have ha := parseDec_natDigits a
  have hb := parseDec_natDigits b
  rw [← ha, ← hb, h]

theorem natDigitsAux_digits (fuel n : ℕ) (h : n < fuel) :
    ∀ c ∈ natDigitsAux fuel n, 48 ≤ c.toNat ∧ c.toNat ≤ 57 := by
  induction fuel using Nat.strong_induction_on generalizing n with
  | _ fuel ih =>
    match fuel, h with
    | f + 1, h =>
      intro c hc
      rw [natDigitsAux] at hc
      by_cases h10 : n < 10
      · rw [if_pos h10] at hc
        simp only [List.mem_singleton] at hc
        subst hc
        rw [digitChar_toNat n h10]
        omega
      · rw [if_neg h10] at hc
        have hn : 0 < n := by omega
        have hdiv : n / 10 < n := Nat.div_lt_self hn (by norm_num)
        rcases List.mem_append.mp hc with hm | hm
        · exact ih f (lt_add_one _) (n / 10) (by omega) c hm
        · simp only [List.mem_singleton] at hm
          subst hm
          rw [digitChar_toNat (n % 10) (Nat.mod_lt n (by norm_num))]
          omega

theorem natDigits_digits (n : ℕ) :
    ∀ c ∈ natDigits n, 48 ≤ c.toNat ∧ c.toNat ≤ 57 :=
  natDigitsAux_digits (n + 1) n (lt_add_one n)

theorem natDigits_ne_nil (n : ℕ) : natDigits n ≠ [] := by
  rw [natDigits, natDigitsAux]
  by_cases h10 : n < 10
  · rw [if_pos h10]
    exact List.cons_ne_nil _ _
  · rw [if_neg h10]
    intro hcon
    exact absurd (List.append_eq_nil.mp hcon).2 (List.cons_ne_nil _ _)

/-! ## Page.#seekTimeActions
`src/index.cjs` lines 5384-5402.  The code runs
`Object.keys(this.timeActions).map(Number).sort().find(time => currentTime >= time)`:
the comma-free `sort()` uses the DEFAULT comparator, which compares the
decimal string representations code-unit-wise; `if (!matchTimeNodes)` then
drops a found key `0` (falsy) as well as `undefined`.  Keys are the
registered action times (non-negative integers); actions are identified by
an abstract tag. -/

/-- Code-unit-wise lexicographic `<=` on strings (as JS string comparison
orders them); here on `List Char`. -/
def strLeb : List Char → List Char → Bool
  | [], _ => true
  | _ :: _, [] => false
  | a :: as, b :: bs =>
    if a.toNat < b.toNat then true
    else if b.toNat < a.toNat then false
    else strLeb as bs

/-- The JS default sort comparator's ordering on numeric keys: compare the
decimal strings. -/
def jsKeyLe (a b : ℕ) : Prop := strLeb (natDigits a) (natDigits b) = true

instance : DecidableRel jsKeyLe := fun a b => by
  unfold jsKeyLe
  infer_instance

theorem strLeb_total (a b : List Char) : strLeb a b = true ∨ strLeb b a = true := by
  induction a generalizing b with
  | nil => exact Or.inl rfl
  | cons x xs ih =>
    cases b with
    | nil => exact Or.inr rfl
    | cons y ys =>
      rw [strLeb, strLeb]
      by_cases hxy : x.toNat < y.toNat
      · left
        rw [if_pos hxy]
      · by_cases hyx : y.toNat < x.toNat
        · right
          rw [if_pos hyx]
        · rw [if_neg hxy, if_neg hyx, if_neg hyx, if_neg hxy]
          exact ih ys

theorem strLeb_trans (a b c : List Char) (hab : strLeb a b = true)
    (hbc : strLeb b c = true) : strLeb a c = true := by
  induction a generalizing b c with
  | nil => rfl
  | cons x xs ih =>
    cases b with
    | nil => exact absurd hab (by rw [strLeb]; simp)
    | cons y ys =>
      cases c with
      | nil => exact absurd hbc (by rw [strLeb]; simp)
      | cons z zs =>
        rw [strLeb] at hab hbc ⊢
        split_ifs at hab hbc ⊢ <;>
          first
          | rfl
          | omega
          | simp at hab
          | simp at hbc
          | exact ih ys zs hab hbc

theorem charToNat_inj (x y : Char) (h : x.toNat = y.toNat) : x = y := by
  have h3 : x.val.toBitVec = y.val.toBitVec := BitVec.eq_of_toNat_eq h
  exact Char.eq_of_val_eq (congrArg UInt32.mk h3)

theorem strLeb_antisymm (a b : List Char) (hab : strLeb a b = true)
    (hba : strLeb b a = true) : a = b := by
  induction a generalizing b with
  | nil =>
    cases b with
    | nil => rfl
    | cons y ys => exact absurd hba (by rw [strLeb]; simp)
  | cons x xs ih =>
    cases b with
    | nil => exact absurd hab (by rw [strLeb]; simp)
    | cons y ys =>
      rw [strLeb] at hab hba
      split_ifs at hab hba <;>
        first
        | omega
        | simp at hab
        | simp at hba
        | (rw [charToNat_inj x y (by omega), ih ys hab hba])

instance : IsTotal ℕ jsKeyLe :=
  ⟨fun a b => strLeb_total (natDigits a) (natDigits b)⟩

instance : IsTrans ℕ jsKeyLe :=
  ⟨fun a b c hab hbc =>
    strLeb_trans (natDigits a) (natDigits b) (natDigits c) hab hbc⟩

theorem jsKeyLe_refl (a : ℕ) : jsKeyLe a a :=
  (strLeb_total (natDigits a) (natDigits a)).elim id id

theorem jsKeyLe_antisymm (a b : ℕ) (hab : jsKeyLe a b) (hba : jsKeyLe b a) :
    a = b :=
  natDigits_injective a b (strLeb_antisymm _ _ hab hba)

theorem jsKeyLe_zero_left (b : ℕ) : jsKeyLe 0 b := by
  unfold jsKeyLe
  have hb := natDigits_digits b
  have hnil := natDigits_ne_nil b
  match hd : natDigits b with
  | [] => exact absurd hd hnil
  | c :: rest =>
    have hc : 48 ≤ c.toNat ∧ c.toNat ≤ 57 := by
      refine hb c ?_
      rw [hd]
      exact List.mem_cons_self c rest
    show strLeb (natDigits 0) (c :: rest) = true
    have h0 : natDigits 0 = [digitChar 0] := rfl
    rw [h0, strLeb]
    have h48 : (digitChar 0).toNat = 48 := by decide
    rw [h48]
    by_cases hlt : 48 < c.toNat
    · rw [if_pos (by omega)]
    · rw [if_neg (by omega), if_neg (by omega)]
      rfl

/-- `Page.#seekTimeActions(currentTime)` over a registered `timeActions`
map (an association list keyed by non-negative integer times, values an
abstract action tag): sort the keys with the DEFAULT JS comparator
(decimal-string, code-unit-wise), `find` the first key `<= currentTime`,
drop a falsy result (`undefined` or the key `0`), else delete that entry
and invoke it.  Returns the remaining map and the invoked entry. -/
def seekTimeActions {α : Type} (m : List (ℕ × α)) (t : ℕ) :
    List (ℕ × α) × Option (ℕ × α) :=
  match ((m.map Prod.fst).insertionSort jsKeyLe).find? (fun k => decide (k ≤ t)) with
  | none => (m, none)
  | some k =>
    if k = 0 then (m, none)
    else (m.filter (fun e => decide (e.1 ≠ k)),
          m.find? (fun e => decide (e.1 = k)))

theorem sorted_find?_min (l : List ℕ) (hs : List.Pairwise jsKeyLe l)
    (p : ℕ → Bool) (x : ℕ) (hx : l.find? p = some x) :
    ∀ y ∈ l, p y = true → jsKeyLe x y := by
  induction l with
  | nil => exact absurd hx (by simp)
  | cons a rest ih =>
    rw [List.find?_cons] at hx
    rcases List.pairwise_cons.mp hs with ⟨ha, hrest⟩
    by_cases hpa : p a
    · rw [hpa] at hx
      simp only [Option.some.injEq] at hx
      intro y hy _
      rcases List.mem_cons.mp hy with h | h
      · rw [← hx, h]
        exact jsKeyLe_refl a
      · rw [← hx]
        exact ha y h
    · rw [Bool.not_eq_true] at hpa
      rw [hpa] at hx
      intro y hy hpy
      rcases List.mem_cons.mp hy with h | h
      · exact absurd (h ▸ hpy) (by rw [hpa]; simp)
      · exact ih hrest hx y h hpy

theorem find?_entry {α : Type} (m : List (ℕ × α)) (k : ℕ)
    (hk : k ∈ m.map Prod.fst) :
    ∃ v, m.find? (fun e => decide (e.1 = k)) = some (k, v) := by
  induction m with
  | nil => exact absurd hk (by simp)
  | cons e rest ih =>
    by_cases hek : e.1 = k
    · have hdec : decide (e.1 = k) = true := by simp [hek]
      refine ⟨e.2, ?_⟩
      rw [List.find?_cons, hdec]
      show some e = some (k, e.2)
      rw [← hek]
    · have hdec : decide (e.1 = k) = false := by simp [hek]
      have hsub : k ∈ rest.map Prod.fst := by
        rcases List.mem_map.mp hk with ⟨e', he', hfst⟩
        rcases List.mem_cons.mp he' with h | h
        · exact absurd (h ▸ hfst) hek
        · exact List.mem_map.mpr ⟨e', h, hfst⟩
      obtain ⟨v, hv⟩ := ih hsub
      refine ⟨v, ?_⟩
      rw [List.find?_cons, hdec]
      exact hv

/-- C2 counterexample: with registered actions at 9 and 10 and
`seekTimeActions(10)`, the smallest key `<= 10` is 9, but the default
string sort orders `"10" < "9"`, so the code removes and invokes the entry
at key 10 and leaves key 9 in the map — refuting "exactly the entry with
the smallest such key is removed and invoked". -/
theorem seekTimeActions_lex_counterexample :
    seekTimeActions [((9 : ℕ), (0 : ℕ)), (10, 1)] 10 = ([(9, 0)], some (10, 1))
    ∧ (9 : ℕ) ∈ List.map Prod.fst [((9 : ℕ), (0 : ℕ)), (10, 1)]
    ∧ (9 : ℕ) ≤ 10 ∧ (9 : ℕ) ≠ 10 := by
  refine ⟨?_, by decide, by decide, by decide⟩
  decide

/-- C2 amended: on a `timeActions` map with distinct keys, if no key is
`<= t` the map is unchanged and nothing is invoked; if the key whose
decimal string sorts first among keys `<= t` is `0`, the falsy-result
guard also leaves the map unchanged and invokes nothing (key 0 blocks);
otherwise exactly one entry is removed and invoked, namely the one whose
key is `<= t` and minimal in the default-sort (decimal string) order — not
necessarily the numerically smallest — and that key is no longer present
afterwards, so each action fires at most once. -/
theorem filter_ne_length {α : Type} (m : List (ℕ × α)) (k : ℕ)
    (hnd : (m.map Prod.fst).Nodup) (hk : k ∈ m.map Prod.fst) :
    (m.filter (fun e => decide (e.1 ≠ k))).length + 1 = m.length := by
  induction m with
  | nil => simp at hk
  | cons e rest ih =>
    rw [List.map_cons, List.nodup_cons] at hnd
    rw [List.filter_cons]
    by_cases hek : e.1 = k
    · have hdec : decide (e.1 ≠ k) = false := by simp [hek]
      rw [hdec]
      have hall : rest.filter (fun e => decide (e.1 ≠ k)) = rest := by
        rw [List.filter_eq_self]
        intro a ha
        have : a.1 ∈ rest.map Prod.fst := List.mem_map.mpr ⟨a, ha, rfl⟩
        simp only [decide_eq_true_eq]
        intro hak
        exact hnd.1 (by rw [hek, ← hak]; exact this)
      simp only [Bool.false_eq_true, if_false, hall, List.length_cons]
    · have hdec : decide (e.1 ≠ k) = true := by simp [hek]
      rw [hdec]
      have hkrest : k ∈ rest.map Prod.fst := by
        rcases List.mem_map.mp hk with ⟨e2, he2, hfst⟩
        rcases List.mem_cons.mp he2 with h | h
        · exact absurd (h ▸ hfst) hek
        · exact List.mem_map.mpr ⟨e2, h, hfst⟩
      have hlen := ih hnd.2 hkrest
      rw [if_pos rfl, List.length_cons, List.length_cons]
      omega

theorem seekTimeActions_spec {α : Type} (m : List (ℕ × α)) (t : ℕ)
    (hnd : (m.map Prod.fst).Nodup) :
    ((∀ k ∈ m.map Prod.fst, ¬ k ≤ t) → seekTimeActions m t = (m, none))
    ∧ (0 ∈ m.map Prod.fst → seekTimeActions m t = (m, none))
    ∧ (∀ k v, (seekTimeActions m t).2 = some (k, v) →
        (k, v) ∈ m ∧ k ≤ t ∧ k ≠ 0
        ∧ (∀ k' ∈ m.map Prod.fst, k' ≤ t → jsKeyLe k k')
        ∧ (seekTimeActions m t).1 = m.filter (fun e => decide (e.1 ≠ k))
        ∧ (seekTimeActions m t).1.length + 1 = m.length
        ∧ k ∉ (seekTimeActions m t).1.map Prod.fst)
    ∧ ((∃ k ∈ m.map Prod.fst, k ≤ t) → 0 ∉ m.map Prod.fst →
        ∃ k v, (seekTimeActions m t).2 = some (k, v)) := by
  have hperm := List.perm_insertionSort jsKeyLe (m.map Prod.fst)
  have hsorted := List.sorted_insertionSort jsKeyLe (m.map Prod.fst)
  have hcharNone : ((m.map Prod.fst).insertionSort jsKeyLe).find?
        (fun k => decide (k ≤ t)) = none →
      seekTimeActions m t = (m, none) := by
    intro hf
    unfold seekTimeActions
    rw [hf]
  have hchar : ∀ k0, ((m.map Prod.fst).insertionSort jsKeyLe).find?
        (fun k => decide (k ≤ t)) = some k0 →
      seekTimeActions m t
        = if k0 = 0 then (m, none)
          else (m.filter (fun e => decide (e.1 ≠ k0)),
                m.find? (fun e => decide (e.1 = k0))) := by
    intro k0 hf
    unfold seekTimeActions
    rw [hf]
  refine ⟨?_, ?_, ?_, ?_⟩
  · intro hall
    refine hcharNone ?_
    rw [List.find?_eq_none]
    intro x hxmem
    simp only [decide_eq_true_eq]
    exact hall x (hperm.mem_iff.mp hxmem)
  · intro h0
    cases hfind : ((m.map Prod.fst).insertionSort jsKeyLe).find?
        (fun k => decide (k ≤ t)) with
    | none => exact hcharNone hfind
    | some k0 =>
      have hmin := sorted_find?_min _ hsorted _ k0 hfind 0
        (hperm.mem_iff.mpr h0) (by simp)
      have hk0 : k0 = 0 := jsKeyLe_antisymm k0 0 hmin (jsKeyLe_zero_left k0)
      rw [hchar k0 hfind, if_pos hk0]
  · intro k v hkv
    cases hfind : ((m.map Prod.fst).insertionSort jsKeyLe).find?
        (fun k => decide (k ≤ t)) with
    | none =>
      rw [hcharNone hfind] at hkv
      exact absurd hkv (by simp)
    | some k0 =>
      rw [hchar k0 hfind] at hkv
      by_cases h0 : k0 = 0
      · rw [if_pos h0] at hkv
        exact absurd hkv (by simp)
      · rw [if_neg h0] at hkv
        simp only at hkv
        have hk : k = k0 := by
          have := List.find?_some hkv
          simpa using this
        subst hk
        have hmem : (k, v) ∈ m := List.mem_of_find?_eq_some hkv
        have hle : k ≤ t := by
          have := List.find?_some hfind
          simpa using this
        rw [hchar k hfind, if_neg h0]
        refine ⟨hmem, hle, h0, ?_, rfl, ?_, ?_⟩
        · intro k' hk' hk'le
          exact sorted_find?_min _ hsorted _ k hfind k'
            (hperm.mem_iff.mpr hk') (by simpa using hk'le)
        · exact filter_ne_length m k hnd (List.mem_map.mpr ⟨(k, v), hmem, rfl⟩)
        · intro hcon
          rcases List.mem_map.mp hcon with ⟨e, he, hfst⟩
          rcases List.mem_filter.mp he with ⟨_, hne⟩
          rw [hfst] at hne
          simp at hne
  · intro hex h0
    cases hfind : ((m.map Prod.fst).insertionSort jsKeyLe).find?
        (fun k => decide (k ≤ t)) with
    | none =>
      obtain ⟨k, hk, hkle⟩ := hex
      have := List.find?_eq_none.mp hfind k (hperm.mem_iff.mpr hk)
      simp only [decide_eq_true_eq] at this
      exact absurd hkle this
    | some k0 =>
      have hk0mem : k0 ∈ m.map Prod.fst :=
        hperm.mem_iff.mp (List.mem_of_find?_eq_some hfind)
      have hne0 : k0 ≠ 0 := fun hc => h0 (hc ▸ hk0mem)
      obtain ⟨v, hv⟩ := find?_entry m k0 hk0mem
      refine ⟨k0, v, ?_⟩
      rw [hchar k0 hfind, if_neg hne0]
      exact hv

/-- Witness for `seekTimeActions_spec` on the map `{2: a, 10: b}` at
`t = 5`. -/
theorem seekTimeActions_spec_witness :
    (List.map Prod.fst [((2 : ℕ), (0 : ℕ)), (10, 1)]).Nodup
    ∧ (((∀ k ∈ List.map Prod.fst [((2 : ℕ), (0 : ℕ)), (10, 1)], ¬ k ≤ 5) →
        seekTimeActions [((2 : ℕ), (0 : ℕ)), (10, 1)] 5
          = ([((2 : ℕ), (0 : ℕ)), (10, 1)], none))
      ∧ ((0 : ℕ) ∈ List.map Prod.fst [((2 : ℕ), (0 : ℕ)), (10, 1)] →
          seekTimeActions [((2 : ℕ), (0 : ℕ)), (10, 1)] 5
            = ([((2 : ℕ), (0 : ℕ)), (10, 1)], none))
      ∧ (∀ k v, (seekTimeActions [((2 : ℕ), (0 : ℕ)), (10, 1)] 5).2 = some (k, v) →
          (k, v) ∈ [((2 : ℕ), (0 : ℕ)), (10, 1)] ∧ k ≤ 5 ∧ k ≠ 0
          ∧ (∀ k' ∈ List.map Prod.fst [((2 : ℕ), (0 : ℕ)), (10, 1)],
              k' ≤ 5 → jsKeyLe k k')
          ∧ (seekTimeActions [((2 : ℕ), (0 : ℕ)), (10, 1)] 5).1
              = [((2 : ℕ), (0 : ℕ)), (10, 1)].filter (fun e => decide (e.1 ≠ k))
          ∧ (seekTimeActions [((2 : ℕ), (0 : ℕ)), (10, 1)] 5).1.length + 1
              = [((2 : ℕ), (0 : ℕ)), (10, 1)].length
          ∧ k ∉ (seekTimeActions [((2 : ℕ), (0 : ℕ)), (10, 1)] 5).1.map Prod.fst)
      ∧ ((∃ k ∈ List.map Prod.fst [((2 : ℕ), (0 : ℕ)), (10, 1)], k ≤ 5) →
          (0 : ℕ) ∉ List.map Prod.fst [((2 : ℕ), (0 : ℕ)), (10, 1)] →
          ∃ k v, (seekTimeActions [((2 : ℕ), (0 : ℕ)), (10, 1)] 5).2 = some (k, v))) :=
  ⟨by decide, seekTimeActions_spec [((2 : ℕ), (0 : ℕ)), (10, 1)] 5 (by decide)⟩

/-! ## Preprocessor payload packing
`src/index.cjs`: `VideoProcessTask.#packData` (lines 2103-2120) and
`VideoCanvas._unpackData` (3260-3285).  The JSON layer (`JSON.stringify` /
`JSON.parse`) is modelled for flat values — scalars and arrays of scalars —
which covers every payload the task produces (`hasMask`/`hasAudio`/
`hasClip` booleans and `["buffer", start, end]` triples) as well as
arbitrary scalar descriptor fields.  Bytes are `ℕ` (a `Buffer` octet or a
UTF-8 code unit; the faithfulness side conditions keep strings in
printable ASCII where UTF-8 is the identity). -/

/-- A flat JSON scalar. -/
inductive JScalar where
  | jnull
  | jbool (b : Bool)
  | jnum (n : ℤ)
  | jstr (s : List Char)
deriving DecidableEq

/-- A flat JSON value: a scalar or an array of scalars. -/
inductive JVal where
  | scalar (v : JScalar)
  | jarr (xs : List JScalar)
deriving DecidableEq

/-- A field of the object handed to `#packData`: a `Buffer` or a plain
JSON value. -/
inductive PField where
  | buf (bytes : List ℕ)
  | val (v : JVal)
deriving DecidableEq

/-- A field of the object produced by `_unpackData`: a `Uint8Array`'s byte
content or a plain JSON value. -/
inductive UField where
  | bytes (bs : List ℕ)
  | val (v : JVal)
deriving DecidableEq

/-- The expected unpacking of a packed field: buffers come back as their
byte content, plain values unchanged. -/
def ufieldOf : PField → UField
  | .buf b => .bytes b
  | .val v => .val v

/-- `JSON.stringify` string escaping (for strings without control
characters only `"` and `\` are escaped). -/
def escapeChar (c : Char) : List Char :=
  if c = '"' ∨ c = '\\' then ['\\', c] else [c]

def escapeStr : List Char → List Char
  | [] => []
  | c :: rest => escapeChar c ++ escapeStr rest

/-- `JSON.stringify` of a string (printable-ASCII faithful). -/
def encodeString (s : List Char) : List Char :=
  '"' :: (escapeStr s ++ ['"'])

/-- `JSON.stringify` of an integer JS number. -/
def intRepr (n : ℤ) : List Char :=
  if n < 0 then '-' :: natDigits n.natAbs else natDigits n.toNat

def encodeScalar : JScalar → List Char
  | .jnull => ['n', 'u', 'l', 'l']
  | .jbool true => ['t', 'r', 'u', 'e']
  | .jbool false => ['f', 'a', 'l', 's', 'e']
  | .jnum n => intRepr n
  | .jstr s => encodeString s

/-- Array elements with separators and the closing bracket. -/
def encodeArrBody : List JScalar → List Char
  | [] => [']']
  | [x] => encodeScalar x ++ [']']
  | x :: y :: xs => encodeScalar x ++ ',' :: encodeArrBody (y :: xs)

def encodeJVal : JVal → List Char
  | .scalar v => encodeScalar v
  | .jarr xs => '[' :: encodeArrBody xs

/-- Object fields with separators and the closing brace. -/
def encodeObjBody : List (List Char × JVal) → List Char
  | [] => ['}']
  | [(k, v)] => encodeString k ++ ':' :: (encodeJVal v ++ ['}'])
  | (k, v) :: f :: fs =>
    encodeString k ++ ':' :: (encodeJVal v ++ ',' :: encodeObjBody (f :: fs))

/-- `JSON.stringify` of the (flat) descriptor object. -/
def encodeObj (fs : List (List Char × JVal)) : List Char :=
  '{' :: encodeObjBody fs

/-- Is `c` an ASCII decimal digit? -/
def isDigitB (c : Char) : Bool :=
  decide (48 ≤ c.toNat) && decide (c.toNat ≤ 57)

/-- JSON string body parser (after the opening quote): handles the `\"`
and `\\` escapes the encoder emits. -/
def parseJString : List Char → Option (List Char × List Char)
  | [] => none
  | c :: rest =>
    if c = '"' then some ([], rest)
    else if c = '\\' then
      match rest with
      | [] => none
      | c2 :: rest2 =>
        if c2 = '"' ∨ c2 = '\\' then
          match parseJString rest2 with
          | some (s, r) => some (c2 :: s, r)
          | none => none
        else none
    else
      match parseJString rest with
      | some (s, r) => some (c :: s, r)
      | none => none

/-- JSON number parser (integers). -/
def parseNumber (cs : List Char) : Option (ℤ × List Char) :=
  match cs with
  | [] => none
  | c :: rest =>
    if c = '-' then
      let digits := rest.takeWhile isDigitB
      if digits.isEmpty then none
      else some (-(parseDec digits : ℤ), rest.dropWhile isDigitB)
    else
      let digits := (c :: rest).takeWhile isDigitB
      if digits.isEmpty then none
      else some ((parseDec digits : ℤ), (c :: rest).dropWhile isDigitB)

/-- JSON scalar parser. -/
def parseScalar (cs : List Char) : Option (JScalar × List Char) :=
  match cs with
  | [] => none
  | c :: rest =>
    if c = 'n' then
      match rest with
      | 'u' :: 'l' :: 'l' :: r => some (.jnull, r)
      | _ => none
    else if c = 't' then
      match rest with
      | 'r' :: 'u' :: 'e' :: r => some (.jbool true, r)
      | _ => none
    else if c = 'f' then
      match rest with
      | 'a' :: 'l' :: 's' :: 'e' :: r => some (.jbool false, r)
      | _ => none
    else if c = '"' then
      match parseJString rest with
      | some (s, r) => some (.jstr s, r)
      | none => none
    else
      match parseNumber (c :: rest) with
      | some (n, r) => some (.jnum n, r)
      | none => none

/-- Array element list parser (consumes up to and including `]`). -/
def parseArrElems : ℕ → List Char → Option (List JScalar × List Char)
  | 0, _ => none
  | fuel + 1, cs =>
    match parseScalar cs with
    | none => none
    | some (v, r) =>
      match r with
      | [] => none
      | c :: r2 =>
        if c = ',' then
          match parseArrElems fuel r2 with
          | some (vs, r3) => some (v :: vs, r3)
          | none => none
        else if c = ']' then some ([v], r2)
        else none

/-- JSON value parser (scalar or flat array). -/
def parseJVal (cs : List Char) : Option (JVal × List Char) :=
  match cs with
  | [] => none
  | c :: rest =>
    if c = '[' then
      match rest with
      | [] => none
      | c2 :: rest2 =>
        if c2 = ']' then some (.jarr [], rest2)
        else
          match parseArrElems (c2 :: rest2).length (c2 :: rest2) with
          | some (vs, r) => some (.jarr vs, r)
          | none => none
    else
      match parseScalar (c :: rest) with
      | some (s, r) => some (.scalar s, r)
      | none => none

/-- Object field list parser (consumes up to and including `}`). -/
def parseFields : ℕ → List Char → Option (List (List Char × JVal) × List Char)
  | 0, _ => none
  | fuel + 1, cs =>
    match cs with
    | [] => none
    | c :: rest =>
      if c = '"' then
        match parseJString rest with
        | none => none
        | some (k, r1) =>
          match r1 with
          | [] => none
          | c1 :: r2 =>
            if c1 = ':' then
              match parseJVal r2 with
              | none => none
              | some (v, r3) =>
                match r3 with
                | [] => none
                | c3 :: r4 =>
                  if c3 = ',' then
                    match parseFields fuel r4 with
                    | some (fs, r5) => some ((k, v) :: fs, r5)
                    | none => none
                  else if c3 = '}' then some ([(k, v)], r4)
                  else none
            else none
      else none

/-- JSON object parser. -/
def parseObj (cs : List Char) : Option (List (List Char × JVal) × List Char) :=
  match cs with
  | [] => none
  | c :: rest =>
    if c = '{' then
      match rest with
      | [] => none
      | c2 :: rest2 =>
        if c2 = '}' then some ([], rest2)
        else parseFields (c2 :: rest2).length (c2 :: rest2)
    else none

/-- `JSON.parse` of a full (flat) object document. -/
def jsonParse (cs : List Char) : Option (List (List Char × JVal)) :=
  match parseObj cs with
  | some (fs, []) => some fs
  | _ => none

/-- The `"buffer"` marker string. -/
def bufferWord : List Char := ['b', 'u', 'f', 'f', 'e', 'r']

/-- `#packData`'s field transformation: a `Buffer` field becomes
`["buffer", bufferOffset, bufferOffset + length]` while `bufferOffset`
advances; other fields pass through. -/
def buildFields : List (List Char × PField) → ℕ → List (List Char × JVal)
  | [], _ => []
  | (k, .buf b) :: rest, off =>
    (k, JVal.jarr [.jstr bufferWord, .jnum (off : ℤ),
                   .jnum ((off + b.length : ℕ) : ℤ)])
      :: buildFields rest (off + b.length)
  | (k, .val v) :: rest, off => (k, v) :: buildFields rest off

/-- The buffer section: all `Buffer` fields' bytes in field order. -/
def collectBuffers : List (List Char × PField) → List ℕ
  | [] => []
  | (_, .buf b) :: rest => b ++ collectBuffers rest
  | (_, .val _) :: rest => collectBuffers rest

/-- `VideoProcessTask.#packData`: ASCII decimal length of the JSON bytes,
`!`, the JSON bytes, then the buffer bytes. -/
def packData (data : List (List Char × PField)) : List ℕ :=
  let objBytes := (encodeObj (buildFields data 0)).map Char.toNat
  (natDigits objBytes.length).map Char.toNat ++ 33 :: (objBytes ++ collectBuffers data)

/-- The `_unpackData` delimiter scan: index of the first `!` byte. -/
def findDelim : List ℕ → Option ℕ
  | [] => none
  | b :: rest =>
    if b = 33 then some 0
    else (findDelim rest).map (· + 1)

/-- JS `parseInt` on a digit-run string: `none` models `NaN`. -/
def parseIntChars (cs : List Char) : Option ℕ :=
  let digits := cs.takeWhile isDigitB
  if digits.isEmpty then none else some (parseDec digits)

/-- Does a parsed field value look like a buffer reference
(`Array.isArray(v) && v[0] === "buffer"`)? -/
def bufferHeaded : JVal → Bool
  | .jarr (.jstr s :: _) => decide (s = bufferWord)
  | _ => false

/-- The `_unpackData` buffer reconstruction:
`new Uint8Array(dataView.buffer.slice(bufferOffset + start, bufferOffset + end))`
for a well-formed `["buffer", start, end]` triple (the only shape
`#packData` emits; a malformed triple yields an empty/garbled buffer in
JS, modelled as empty bytes). -/
def sliceBytes (packed : List ℕ) (bufOff : ℕ) : JVal → UField
  | .jarr [_, .jnum s, .jnum e] =>
    .bytes ((packed.drop (bufOff + s.toNat)).take (e.toNat - s.toNat))
  | _ => .bytes []

/-- `VideoCanvas._unpackData`: find `!`, parse the decimal header, check
the advertised length, `JSON.parse` the descriptor, then replace every
`["buffer", ...]`-shaped field by the referenced byte slice. -/
def unpackData (packed : List ℕ) : Option (List (List Char × UField)) :=
  match findDelim packed with
  | none => none
  | some di =>
    match parseIntChars ((packed.take di).map Char.ofNat) with
    | none => none
    | some objLength =>
      if objLength = 0 ∨ packed.length - di - 1 < objLength then none
      else
        match jsonParse (((packed.drop (di + 1)).take objLength).map Char.ofNat) with
        | none => none
        | some obj =>
          some (obj.map (fun p =>
            (p.1, if bufferHeaded p.2 then
                    sliceBytes packed (di + 1 + objLength) p.2
                  else UField.val p.2)))

theorem parseJString_escape (s rest : List Char) :
    parseJString (escapeStr s ++ '"' :: rest) = some (s, rest) := by
  induction s with
  | nil =>
    rw [escapeStr, List.nil_append, parseJString.eq_def]
    simp only
    rw [if_pos trivial]
  | cons c cs ih =>
    rw [escapeStr, escapeChar]
    by_cases hesc : c = '"' ∨ c = '\\'
    · rw [if_pos hesc]
      show parseJString ('\\' :: (c :: (escapeStr cs ++ '"' :: rest))) = _
      rw [parseJString.eq_def]
      simp only
      rw [if_neg (show ¬ (('\\' : Char) = '"') by decide), if_pos trivial,
        if_pos hesc, ih]
    · rw [if_neg hesc]
      show parseJString (c :: (escapeStr cs ++ '"' :: rest)) = _
      rw [parseJString.eq_def]
      simp only
      push_neg at hesc
      rw [if_neg hesc.1, if_neg hesc.2, ih]

theorem takeWhile_digits_append (l rest : List Char)
    (hl : ∀ c ∈ l, isDigitB c = true)
    (hrest : ∀ c, rest.head? = some c → isDigitB c = false) :
    (l ++ rest).takeWhile isDigitB = l
    ∧ (l ++ rest).dropWhile isDigitB = rest := by
  induction l with
  | nil =>
    simp only [List.nil_append]
    cases rest with
    | nil => exact ⟨rfl, rfl⟩
    | cons c rs =>
      have hc : isDigitB c = false := hrest c rfl
      rw [List.takeWhile_cons, List.dropWhile_cons, hc]
      exact ⟨rfl, rfl⟩
  | cons c cs ih =>
    have hc : isDigitB c = true := hl c (by simp)
    rw [List.cons_append, List.takeWhile_cons, List.dropWhile_cons, hc]
    obtain ⟨h1, h2⟩ := ih (fun d hd => hl d (by simp [hd]))
    rw [h1, h2]
    exact ⟨rfl, rfl⟩

theorem natDigits_isDigitB (n : ℕ) : ∀ c ∈ natDigits n, isDigitB c = true := by
  intro c hc
  have := natDigits_digits n c hc
  unfold isDigitB
  simp only [Bool.and_eq_true, decide_eq_true_eq]
  omega

theorem parseNumber_intRepr (n : ℤ) (rest : List Char)
    (hrest : ∀ c, rest.head? = some c → isDigitB c = false) :
    parseNumber (intRepr n ++ rest) = some (n, rest) := by
  unfold intRepr
  by_cases hneg : n < 0
  · rw [if_pos hneg, List.cons_append, parseNumber]
    rw [if_pos rfl]
    obtain ⟨ht, hd⟩ := takeWhile_digits_append (natDigits n.natAbs) rest
      (natDigits_isDigitB _) hrest
    rw [ht, hd]
    rw [if_neg (by simp [natDigits_ne_nil])]
    rw [parseDec_natDigits]
    have : -((n.natAbs : ℕ) : ℤ) = n := by omega
    rw [this]
  · rw [if_neg hneg]
    obtain ⟨ht, hd⟩ := takeWhile_digits_append (natDigits n.toNat) rest
      (natDigits_isDigitB _) hrest
    have hne := natDigits_ne_nil n.toNat
    match hrepr : natDigits n.toNat with
    | [] => exact absurd hrepr hne
    | c :: cs =>
      have hcdig : isDigitB c = true := by
        refine natDigits_isDigitB n.toNat c ?_
        rw [hrepr]
        exact List.mem_cons_self c cs
      have hcne : ¬ c = '-' := by
        intro hcon
        rw [hcon] at hcdig
        exact absurd hcdig (by decide)
      rw [hrepr] at ht hd
      rw [List.cons_append, parseNumber, if_neg hcne]
      rw [show (c :: cs) ++ rest = (c :: cs) ++ rest from rfl] at ht hd
      rw [show c :: (cs ++ rest) = (c :: cs) ++ rest from rfl, ht, hd]
      rw [if_neg (by simp)]
      rw [← hrepr, parseDec_natDigits]
      have : ((n.toNat : ℕ) : ℤ) = n := by omega
      rw [this]

theorem intRepr_head (n : ℤ) :
    ∃ c cs, intRepr n = c :: cs ∧ (c = '-' ∨ isDigitB c = true) := by
  unfold intRepr
  by_cases hneg : n < 0
  · rw [if_pos hneg]
    exact ⟨'-', natDigits n.natAbs, rfl, Or.inl rfl⟩
  · rw [if_neg hneg]
    have hne := natDigits_ne_nil n.toNat
    match hrepr : natDigits n.toNat with
    | [] => exact absurd hrepr hne
    | c :: cs =>
      refine ⟨c, cs, rfl, Or.inr ?_⟩
      refine natDigits_isDigitB n.toNat c ?_
      rw [hrepr]
      exact List.mem_cons_self c cs

theorem parseScalar_encode (v : JScalar) (rest : List Char)
    (hrest : ∀ c, rest.head? = some c → isDigitB c = false) :
    parseScalar (encodeScalar v ++ rest) = some (v, rest) := by
  cases v with
  | jnull =>
    show parseScalar ('n' :: 'u' :: 'l' :: 'l' :: rest) = _
    rw [parseScalar.eq_def]
    simp only
    rw [if_pos trivial]
  | jbool b =>
    cases b with
    | true =>
      show parseScalar ('t' :: 'r' :: 'u' :: 'e' :: rest) = _
      rw [parseScalar.eq_def]
      simp only
      rw [if_neg (by decide), if_pos trivial]
    | false =>
      show parseScalar ('f' :: 'a' :: 'l' :: 's' :: 'e' :: rest) = _
      rw [parseScalar.eq_def]
      simp only
      rw [if_neg (by decide), if_neg (by decide), if_pos trivial]
  | jstr s =>
    show parseScalar (('"' :: (escapeStr s ++ ['"'])) ++ rest) = _
    rw [List.cons_append, parseScalar.eq_def]
    simp only
    rw [if_neg (by decide), if_neg (by decide), if_neg (by decide),
      if_pos trivial]
    rw [List.append_assoc, List.singleton_append, parseJString_escape]
  | jnum n =>
    obtain ⟨c, cs, hrepr, hc⟩ := intRepr_head n
    have hcn : ¬ c = 'n' := by
      intro h
      subst h
      rcases hc with h | h
      · exact absurd h (by decide)
      · exact absurd h (by decide)
    have hct : ¬ c = 't' := by
      intro h
      subst h
      rcases hc with h | h
      · exact absurd h (by decide)
      · exact absurd h (by decide)
    have hcf : ¬ c = 'f' := by
      intro h
      subst h
      rcases hc with h | h
      · exact absurd h (by decide)
      · exact absurd h (by decide)
    have hcq : ¬ c = '"' := by
      intro h
      subst h
      rcases hc with h | h
      · exact absurd h (by decide)
      · exact absurd h (by decide)
    show parseScalar (intRepr n ++ rest) = _
    rw [hrepr, List.cons_append, parseScalar.eq_def]
    simp only
    rw [if_neg hcn, if_neg hct, if_neg hcf, if_neg hcq]
    rw [← List.cons_append, ← hrepr, parseNumber_intRepr n rest hrest]

theorem parseArrElems_encode (xs : List JScalar) :
    ∀ (rest : List Char) (fuel : ℕ), xs ≠ [] → xs.length ≤ fuel →
    parseArrElems fuel (encodeArrBody xs ++ rest) = some (xs, rest) := by
  induction xs with
  | nil =>
    intro rest fuel hne _
    exact absurd rfl hne
  | cons x xs ih =>
    intro rest fuel _ hfuel
    match fuel, hfuel with
    | f + 1, hfuel =>
      cases xs with
      | nil =>
        rw [encodeArrBody, List.append_assoc, List.singleton_append]
        rw [parseArrElems]
        rw [parseScalar_encode x (']' :: rest) (by intro c hc; cases hc; decide)]
        simp only
        rw [if_neg (by decide), if_pos trivial]
      | cons y ys =>
        rw [encodeArrBody, List.append_assoc, List.cons_append]
        rw [parseArrElems]
        rw [parseScalar_encode x (',' :: (encodeArrBody (y :: ys) ++ rest))
          (by intro c hc; cases hc; decide)]
        simp only
        rw [if_pos trivial]
        rw [ih rest f (by simp) (by simpa using Nat.le_of_succ_le_succ hfuel)]

theorem encodeScalar_head (v : JScalar) :
    ∃ c cs, encodeScalar v = c :: cs
      ∧ (c = 'n' ∨ c = 't' ∨ c = 'f' ∨ c = '"' ∨ c = '-' ∨ isDigitB c = true) := by
  cases v with
  | jnull => exact ⟨'n', _, rfl, Or.inl rfl⟩
  | jbool b =>
    cases b with
    | true => exact ⟨'t', _, rfl, Or.inr (Or.inl rfl)⟩
    | false => exact ⟨'f', _, rfl, Or.inr (Or.inr (Or.inl rfl))⟩
  | jstr s => exact ⟨'"', _, rfl, Or.inr (Or.inr (Or.inr (Or.inl rfl)))⟩
  | jnum n =>
    obtain ⟨c, cs, hrepr, hc⟩ := intRepr_head n
    exact ⟨c, cs, hrepr, hc.elim
      (fun h => Or.inr (Or.inr (Or.inr (Or.inr (Or.inl h)))))
      (fun h => Or.inr (Or.inr (Or.inr (Or.inr (Or.inr h)))))⟩

theorem scalar_head_ne_brackets (c : Char)
    (h : c = 'n' ∨ c = 't' ∨ c = 'f' ∨ c = '"' ∨ c = '-' ∨ isDigitB c = true) :
    ¬ c = '[' ∧ ¬ c = ']' := by
  constructor <;> intro hc <;> subst hc <;>
    rcases h with h | h | h | h | h | h <;>
      exact absurd h (by decide)

theorem encodeScalar_length (v : JScalar) : 1 ≤ (encodeScalar v).length := by
  obtain ⟨c, cs, hrepr, _⟩ := encodeScalar_head v
  rw [hrepr]
  simp

theorem encodeArrBody_length (xs : List JScalar) :
    xs.length < (encodeArrBody xs).length := by
  induction xs with
  | nil => decide
  | cons x xs ih =>
    cases xs with
    | nil =>
      rw [encodeArrBody]
      have := encodeScalar_length x
      simp only [List.length_append, List.length_cons, List.length_nil,
        List.length_singleton]
      omega
    | cons y ys =>
      rw [encodeArrBody]
      have := encodeScalar_length x
      simp only [List.length_append, List.length_cons] at ih ⊢
      omega

theorem encodeArrBody_head (x : JScalar) (xs : List JScalar) :
    ∃ c cs, encodeArrBody (x :: xs) = c :: cs
      ∧ (c = 'n' ∨ c = 't' ∨ c = 'f' ∨ c = '"' ∨ c = '-' ∨ isDigitB c = true) := by
  obtain ⟨c, cs, hrepr, hc⟩ := encodeScalar_head x
  cases xs with
  | nil =>
    refine ⟨c, cs ++ [']'], ?_, hc⟩
    rw [encodeArrBody, hrepr, List.cons_append]
  | cons y ys =>
    refine ⟨c, cs ++ ',' :: encodeArrBody (y :: ys), ?_, hc⟩
    rw [encodeArrBody, hrepr, List.cons_append]

theorem parseJVal_encode (v : JVal) (rest : List Char)
    (hrest : ∀ c, rest.head? = some c → isDigitB c = false) :
    parseJVal (encodeJVal v ++ rest) = some (v, rest) := by
  cases v with
  | scalar s =>
    obtain ⟨c, cs, hrepr, hc⟩ := encodeScalar_head s
    have hne := (scalar_head_ne_brackets c hc).1
    show parseJVal (encodeScalar s ++ rest) = _
    rw [hrepr, List.cons_append, parseJVal.eq_def]
    simp only
    rw [if_neg hne, ← List.cons_append, ← hrepr, parseScalar_encode s rest hrest]
  | jarr xs =>
    cases xs with
    | nil =>
      show parseJVal ('[' :: ']' :: rest) = _
      rw [parseJVal.eq_def]
      simp only
      rw [if_pos trivial, if_pos trivial]
    | cons x xs =>
      obtain ⟨c, cs, hrepr, hc⟩ := encodeArrBody_head x xs
      have hne := (scalar_head_ne_brackets c hc).2
      show parseJVal ('[' :: encodeArrBody (x :: xs) ++ rest) = _
      rw [List.cons_append, hrepr, List.cons_append, parseJVal.eq_def]
      simp only
      rw [if_pos trivial, if_neg hne]
      rw [← List.cons_append, ← hrepr]
      rw [parseArrElems_encode (x :: xs) rest _ (by simp) ?_]
      rw [List.length_append]
      have := encodeArrBody_length (x :: xs)
      omega

theorem encodeJVal_length (v : JVal) : 1 ≤ (encodeJVal v).length := by
  cases v with
  | scalar s => exact encodeScalar_length s
  | jarr xs => simp [encodeJVal]

theorem encodeObjBody_length (fs : List (List Char × JVal)) :
    fs.length < (encodeObjBody fs).length := by
  induction fs with
  | nil => decide
  | cons f fs ih =>
    match f with
    | (k, v) =>
      cases fs with
      | nil =>
        rw [encodeObjBody]
        have := encodeJVal_length v
        simp only [encodeString, List.length_append, List.length_cons,
          List.length_nil, List.length_singleton]
        omega
      | cons g gs =>
        rw [encodeObjBody]
        have := encodeJVal_length v
        simp only [encodeString, List.length_append, List.length_cons] at ih ⊢
        omega

theorem parseFields_encode (fs : List (List Char × JVal)) :
    ∀ (rest : List Char) (fuel : ℕ), fs ≠ [] → fs.length ≤ fuel →
    parseFields fuel (encodeObjBody fs ++ rest) = some (fs, rest) := by
  induction fs with
  | nil =>
    intro rest fuel hne _
    exact absurd rfl hne
  | cons f fs ih =>
    intro rest fuel _ hfuel
    match fuel, hfuel with
    | fu + 1, hfuel =>
      match f with
      | (k, v) =>
        cases fs with
        | nil =>
          rw [encodeObjBody, encodeString]
          simp only [List.cons_append, List.append_assoc, List.singleton_append]
          rw [parseFields.eq_def]
          simp only
          rw [if_pos trivial, parseJString_escape]
          simp only [List.nil_append]
          rw [if_pos trivial,
            parseJVal_encode v ('}' :: rest) (by intro c hc; cases hc; decide)]
          simp only
          rw [if_neg (by decide), if_pos trivial]
        | cons g gs =>
          rw [encodeObjBody, encodeString]
          simp only [List.cons_append, List.append_assoc, List.singleton_append]
          rw [parseFields.eq_def]
          simp only
          rw [if_pos trivial, parseJString_escape]
          simp only [List.nil_append]
          rw [if_pos trivial,
            parseJVal_encode v (',' :: (encodeObjBody (g :: gs) ++ rest))
              (by intro c hc; cases hc; decide)]
          simp only
          rw [if_pos trivial]
          rw [ih rest fu (by simp) (by simpa using Nat.le_of_succ_le_succ hfuel)]

theorem jsonParse_encode (fs : List (List Char × JVal)) :
    jsonParse (encodeObj fs) = some fs := by
  unfold jsonParse
  cases fs with
  | nil => rfl
  | cons f fs =>
    match f with
    | (k, v) =>
      have hobj : parseObj (encodeObj ((k, v) :: fs)) = some ((k, v) :: fs, []) := by
        rw [encodeObj, parseObj.eq_def]
        simp only
        rw [if_pos trivial]
        have hbody : encodeObjBody ((k, v) :: fs)
            = '"' :: ((escapeStr k ++ ['"']) ++ (':' :: (encodeJVal v
                ++ (match fs with
                    | [] => ['}']
                    | g :: gs => ',' :: encodeObjBody (g :: gs))))) := by
          cases fs with
          | nil => rw [encodeObjBody, encodeString]; simp
          | cons g gs => rw [encodeObjBody, encodeString]; simp
        rw [hbody]
        simp only
        rw [if_neg (by decide)]
        have := parseFields_encode ((k, v) :: fs) [] (encodeObjBody ((k, v) :: fs)).length
          (by simp) (le_of_lt (encodeObjBody_length _))
        rw [List.append_nil] at this
        rw [hbody] at this
        convert this using 2
      rw [hobj]

theorem map_ofNat_toNat (l : List Char) :
    (l.map Char.toNat).map Char.ofNat = l := by
  rw [List.map_map]
  have : (Char.ofNat ∘ Char.toNat) = id := by
    funext c
    exact Char.ofNat_toNat c
  rw [this, List.map_id]

theorem findDelim_append (D R : List ℕ) (hD : ∀ b ∈ D, b ≠ 33) :
    findDelim (D ++ 33 :: R) = some D.length := by
  induction D with
  | nil =>
    rw [List.nil_append, findDelim, if_pos rfl]
    rfl
  | cons b D ih =>
    rw [List.cons_append, findDelim, if_neg (hD b (by simp))]
    rw [ih (fun x hx => hD x (by simp [hx]))]
    rfl

theorem parseIntChars_digits (n : ℕ) :
    parseIntChars (natDigits n) = some n := by
  unfold parseIntChars
  have := takeWhile_digits_append (natDigits n) [] (natDigits_isDigitB n)
    (by intro c hc; cases hc)
  rw [List.append_nil] at this
  rw [this.1]
  rw [if_neg (by simp [natDigits_ne_nil])]
  rw [parseDec_natDigits]

theorem buildFields_map_slice (G : List ℕ) (bufOff : ℕ) :
    ∀ (data : List (List Char × PField)) (off : ℕ) (tail : List ℕ),
    G.drop (bufOff + off) = collectBuffers data ++ tail →
    (∀ p ∈ data, ∀ v, p.2 = PField.val v → bufferHeaded v = false) →
    (buildFields data off).map (fun p =>
        (p.1, if bufferHeaded p.2 then sliceBytes G bufOff p.2
              else UField.val p.2))
      = data.map (fun p => (p.1, ufieldOf p.2)) := by
  intro data
  induction data with
  | nil =>
    intro off tail _ _
    rfl
  | cons p rest ih =>
    intro off tail hG hnb
    match p with
    | (k, PField.buf b) =>
      rw [buildFields, collectBuffers] at *
      rw [List.map_cons, List.map_cons]
      have hhead : bufferHeaded (JVal.jarr [.jstr bufferWord, .jnum (off : ℤ),
          .jnum ((off + b.length : ℕ) : ℤ)]) = true := by
        simp [bufferHeaded]
      rw [hhead]
      simp only [if_true]
      have hslice : sliceBytes G bufOff (JVal.jarr [.jstr bufferWord,
          .jnum (off : ℤ), .jnum ((off + b.length : ℕ) : ℤ)])
          = UField.bytes b := by
        rw [sliceBytes]
        rw [Int.toNat_natCast, Int.toNat_natCast]
        rw [hG]
        have harith : off + b.length - off = b.length := by omega
        rw [harith]
        rw [List.append_assoc] at hG ⊢
        rw [List.take_left]
      rw [hslice]
      have hG' : G.drop (bufOff + (off + b.length))
          = collectBuffers rest ++ tail := by
        have hdd : G.drop (bufOff + (off + b.length))
            = (G.drop (bufOff + off)).drop b.length := by
          rw [List.drop_drop]
          congr 1
          omega
        rw [hdd, hG, List.append_assoc, List.drop_left]
      rw [ih (off + b.length) tail hG'
        (fun q hq v hv => hnb q (List.mem_cons_of_mem _ hq) v hv)]
      rfl
    | (k, PField.val v) =>
      rw [buildFields, collectBuffers] at *
      rw [List.map_cons, List.map_cons]
      have hv : bufferHeaded v = false := hnb (k, PField.val v) (by simp) v rfl
      rw [hv]
      simp only [Bool.false_eq_true, if_false]
      rw [ih off tail hG
        (fun q hq w hw => hnb q (List.mem_cons_of_mem _ hq) w hw)]
      rfl

/-- Printable-ASCII strings: the fragment on which the model's JSON encoder
agrees exactly with `JSON.stringify`. -/
def printableAscii (s : List Char) : Prop :=
  ∀ c ∈ s, 32 ≤ c.toNat ∧ c.toNat < 128

/-- A well-behaved descriptor key: printable ASCII, nonempty, not starting
with a digit (so JS `for..in` enumeration preserves insertion order, which
the association list models). -/
def validKey (k : List Char) : Prop :=
  printableAscii k ∧ k ≠ [] ∧ ∀ c, k.head? = some c → isDigitB c = false

/-- String values inside a scalar are printable ASCII. -/
def validScalarStr : JScalar → Prop
  | .jstr s => printableAscii s
  | _ => True

/-- String values inside a flat JSON value are printable ASCII. -/
def validJValStrs : JVal → Prop
  | .scalar v => validScalarStr v
  | .jarr xs => ∀ x ∈ xs, validScalarStr x

theorem packed_shape (data : List (List Char × PField)) :
    packData data
      = ((natDigits ((encodeObj (buildFields data 0)).map Char.toNat).length).map
          Char.toNat)
        ++ 33 :: (((encodeObj (buildFields data 0)).map Char.toNat)
            ++ collectBuffers data) := rfl

theorem digitBytes_ne_33 (n : ℕ) :
    ∀ b ∈ (natDigits n).map Char.toNat, b ≠ 33 := by
  intro b hb
  rcases List.mem_map.mp hb with ⟨c, hc, hbc⟩
  have := natDigits_digits n c hc
  omega

/-- C6 amended: for a descriptor whose non-buffer fields are not
`["buffer", ...]`-shaped arrays (and whose keys/strings are printable
ASCII, non-digit-leading — the fragment where this byte-level model is
exact), unpacking the packed payload returns the same non-buffer fields
and, for every buffer field, exactly the original byte content. -/
theorem packUnpack_roundtrip (data : List (List Char × PField))
    (hnb : ∀ p ∈ data, ∀ v, p.2 = PField.val v → bufferHeaded v = false)
    (_hvalid : ∀ p ∈ data, validKey p.1
      ∧ (∀ v, p.2 = PField.val v → validJValStrs v)) :
    unpackData (packData data)
      = some (data.map (fun p => (p.1, ufieldOf p.2))) := by
  rw [packed_shape]
  set J : List Char := encodeObj (buildFields data 0) with hJ
  set O : List ℕ := J.map Char.toNat with hO
  set B : List ℕ := collectBuffers data with hB
  set H : List ℕ := (natDigits O.length).map Char.toNat with hH
  have hdelim : findDelim (H ++ 33 :: (O ++ B)) = some H.length :=
    findDelim_append H (O ++ B) (by rw [hH]; exact digitBytes_ne_33 O.length)
  unfold unpackData
  rw [hdelim]
  simp only
  have htake : (H ++ 33 :: (O ++ B)).take H.length = H := List.take_left H _
  rw [htake, hH, map_ofNat_toNat, parseIntChars_digits]
  simp only
  have hOlen : O.length ≠ 0 := by
    rw [hO, hJ, encodeObj]
    simp
  rw [if_neg (by
    push_neg
    refine ⟨hOlen, ?_⟩
    simp only [hH, List.length_append, List.length_cons, List.length_map]
    omega)]
  have hdrop : (H ++ 33 :: (O ++ B)).drop (H.length + 1) = O ++ B := by
    have hsplit : H ++ 33 :: (O ++ B) = (H ++ [33]) ++ (O ++ B) := by
      rw [List.append_assoc]
      rfl
    have hlen33 : (H ++ [33]).length = H.length + 1 := by
      simp
    rw [hsplit, ← hlen33, List.drop_left]
  rw [hdrop]
  have htakeO : (O ++ B).take O.length = O := List.take_left O B
  rw [htakeO, hO, map_ofNat_toNat, hJ, jsonParse_encode]
  simp only
  have hbufdrop : (H ++ 33 :: (O ++ B)).drop (H.length + 1 + O.length + 0)
      = collectBuffers data ++ [] := by
    have hsplit : H ++ 33 :: (O ++ B) = ((H ++ [33]) ++ O) ++ B := by
      simp [List.append_assoc]
    have hlenHO : ((H ++ [33]) ++ O).length = H.length + 1 + O.length := by
      simp
      omega
    rw [List.append_nil, hsplit, ← hB]
    rw [show H.length + 1 + O.length + 0 = ((H ++ [33]) ++ O).length by
      rw [hlenHO]
      omega]
    exact List.drop_left _ B
  rw [buildFields_map_slice (H ++ 33 :: (O ++ B)) (H.length + 1 + O.length)
    data 0 [] hbufdrop hnb]

/-- C6 counterexample: a descriptor field holding the legitimate JSON array
`["buffer", 0, 0]` (no Buffer anywhere) survives packing, but `_unpackData`
pattern-matches any array whose head is `"buffer"` and replaces the field
with a byte slice — here the empty buffer — instead of the original array,
refuting the claim for arbitrary JSON-serializable field values. -/
theorem packUnpack_counterexample :
    unpackData (packData
        [(['k'], PField.val (JVal.jarr [.jstr bufferWord, .jnum 0, .jnum 0]))])
      = some [(['k'], UField.bytes [])]
    ∧ UField.bytes []
        ≠ ufieldOf (PField.val (JVal.jarr [.jstr bufferWord, .jnum 0, .jnum 0])) :=
  ⟨by decide, by decide⟩

/-- Witness for `packUnpack_roundtrip` on a two-field descriptor: a buffer
`[5, 6, 7]` under key `k` and the boolean `true` under key `h`. -/
theorem packUnpack_roundtrip_witness :
    ((∀ p ∈ [(['k'], PField.buf [5, 6, 7]),
             (['h'], PField.val (JVal.scalar (JScalar.jbool true)))],
        ∀ v, p.2 = PField.val v → bufferHeaded v = false)
      ∧ (∀ p ∈ [(['k'], PField.buf [5, 6, 7]),
                (['h'], PField.val (JVal.scalar (JScalar.jbool true)))],
          validKey p.1 ∧ (∀ v, p.2 = PField.val v → validJValStrs v)))
    ∧ unpackData (packData [(['k'], PField.buf [5, 6, 7]),
          (['h'], PField.val (JVal.scalar (JScalar.jbool true)))])
        = some ([(['k'], PField.buf [5, 6, 7]),
                 (['h'], PField.val (JVal.scalar (JScalar.jbool true)))].map
            (fun p => (p.1, ufieldOf p.2))) := by
  have hnb : ∀ p ∈ [(['k'], PField.buf [5, 6, 7]),
      (['h'], PField.val (JVal.scalar (JScalar.jbool true)))],
      ∀ v, p.2 = PField.val v → bufferHeaded v = false := by
    intro p hp v hv
    rcases List.mem_cons.mp hp with h | h
    · subst h
      cases hv
    · rcases List.mem_cons.mp h with h2 | h2
      · subst h2
        cases hv
        decide
      · cases h2
  have hvalid : ∀ p ∈ [(['k'], PField.buf [5, 6, 7]),
      (['h'], PField.val (JVal.scalar (JScalar.jbool true)))],
      validKey p.1 ∧ (∀ v, p.2 = PField.val v → validJValStrs v) := by
    intro p hp
    rcases List.mem_cons.mp hp with h | h
    · subst h
      refine ⟨⟨?_, by decide, by intro c hc; cases hc; decide⟩, ?_⟩
      · intro c hc
        simp only [List.mem_singleton] at hc
        subst hc
        decide
      intro v hv
      cases hv
    · rcases List.mem_cons.mp h with h2 | h2
      · subst h2
        refine ⟨⟨?_, by decide, by intro c hc; cases hc; decide⟩, ?_⟩
        · intro c hc
          simp only [List.mem_singleton] at hc
          subst hc
          decide
        intro v hv
        cases hv
        trivial
      · cases h2
  exact ⟨⟨hnb, hvalid⟩, packUnpack_roundtrip _ hnb hvalid⟩
